import Mathlib

/-!
A verification development for the Aletheia falsification-driven
claim-evaluation engine.  The definitions below are shallow embeddings of the
Python sources (`aletheia/core.py`, `aletheia/oracles.py`,
`aletheia/plugins.py`, `aletheia/anchoring.py`, `aletheia_epicompiler.py`).
Machine integers are modelled as `Nat` with explicit reduction modulo `2 ^ 32`
where the algorithms work on 32-bit words, byte strings as `List Nat` (each
entry a byte value), Python `float` results as `Rat` (exact arithmetic), and
fallible code as `Except`.  Wall-clock time (`time.time()`) is not modelled;
the `duration_sec` field is fixed to `0`.
-/

namespace Aletheia

/-! ### Bytes, 32-bit words and SHA-256 (model of `hashlib.sha256`) -/

/-- Truncation of a natural number to a 32-bit word. -/
def w32 (n : Nat) : Nat := n % 4294967296

/-- Right rotation of a 32-bit word by `n` bits. -/
def rotr (n x : Nat) : Nat := w32 ((x >>> n) ||| (x <<< (32 - n)))

/-- Bitwise complement of a 32-bit word. -/
def wnot (x : Nat) : Nat := x ^^^ 4294967295

/-- The SHA-256 `Ch` function. -/
def shaCh (e f g : Nat) : Nat := (e &&& f) ^^^ (wnot e &&& g)

/-- The SHA-256 `Maj` function. -/
def shaMaj (a b c : Nat) : Nat := (a &&& b) ^^^ (a &&& c) ^^^ (b &&& c)

/-- The SHA-256 big sigma-0 word function. -/
def bsig0 (x : Nat) : Nat := rotr 2 x ^^^ rotr 13 x ^^^ rotr 22 x

/-- The SHA-256 big sigma-1 word function. -/
def bsig1 (x : Nat) : Nat := rotr 6 x ^^^ rotr 11 x ^^^ rotr 25 x

/-- The SHA-256 small sigma-0 word function. -/
def ssig0 (x : Nat) : Nat := rotr 7 x ^^^ rotr 18 x ^^^ (x >>> 3)

/-- The SHA-256 small sigma-1 word function. -/
def ssig1 (x : Nat) : Nat := rotr 17 x ^^^ rotr 19 x ^^^ (x >>> 10)

/-- The 64 SHA-256 round constants. -/
def shaK : List Nat :=
  [1116352408, 1899447441, 3049323471, 3921009573, 961987163,
   1508970993, 2453635748, 2870763221, 3624381080, 310598401,
   607225278, 1426881987, 1925078388, 2162078206, 2614888103,
   3248222580, 3835390401, 4022224774, 264347078, 604807628,
   770255983, 1249150122, 1555081692, 1996064986, 2554220882,
   2821834349, 2952996808, 3210313671, 3336571891, 3584528711,
   113926993, 338241895, 666307205, 773529912, 1294757372,
   1396182291, 1695183700, 1986661051, 2177026350, 2456956037,
   2730485921, 2820302411, 3259730800, 3345764771, 3516065817,
   3600352804, 4094571909, 275423344, 430227734, 506948616,
   659060556, 883997877, 958139571, 1322822218, 1537002063,
   1747873779, 1955562222, 2024104815, 2227730452, 2361852424,
   2428436474, 2756734187, 3204031479, 3329325298]

/-- The SHA-256 initial hash state. -/
def shaH0 : List Nat :=
  [1779033703, 3144134277, 1013904242, 2773480762,
   1359893119, 2600822924, 528734635, 1541459225]

/-- Big-endian byte expansion of `n` into `k` bytes. -/
def beBytes (k n : Nat) : List Nat :=
  (List.range k).map fun i => n / 256 ^ (k - 1 - i) % 256

/-- SHA-256 padding: append `0x80`, zero bytes, and the 64-bit bit length. -/
def padMessage (msg : List Nat) : List Nat :=
  let padZeros := (56 + 64 - (msg.length + 1) % 64) % 64
  msg ++ [0x80] ++ List.replicate padZeros 0 ++ beBytes 8 (msg.length * 8)

/-- Split a byte list into 64-byte blocks. -/
def chunk64 (l : List Nat) : List (List Nat) :=
  if hl : l = [] then [] else l.take 64 :: chunk64 (l.drop 64)
termination_by l.length
decreasing_by
  simp only [List.length_drop]
  exact Nat.sub_lt (List.length_pos.mpr hl) (by decide)

/-- Read a big-endian 32-bit word out of a block at byte offset `4 * i`. -/
def blockWord (block : List Nat) (i : Nat) : Nat :=
  block.getD (4 * i) 0 * 16777216 + block.getD (4 * i + 1) 0 * 65536 +
    block.getD (4 * i + 2) 0 * 256 + block.getD (4 * i + 3) 0

/-- The SHA-256 message schedule: 64 words derived from one 64-byte block. -/
def schedule (block : List Nat) : List Nat :=
  let ws16 := (List.range 16).map (blockWord block)
  (List.range 48).foldl
    (fun ws i =>
      ws ++ [w32 (ssig1 (ws.getD (i + 14) 0) + ws.getD (i + 9) 0 +
                  ssig0 (ws.getD (i + 1) 0) + ws.getD i 0)])
    ws16

/-- One SHA-256 compression round over the eight-word working state. -/
def shaRound (ws : List Nat) (st : Nat × Nat × Nat × Nat × Nat × Nat × Nat × Nat)
    (t : Nat) : Nat × Nat × Nat × Nat × Nat × Nat × Nat × Nat :=
  let (a, b, c, d, e, f, g, h) := st
  let t1 := w32 (h + bsig1 e + shaCh e f g + shaK.getD t 0 + ws.getD t 0)
  let t2 := w32 (bsig0 a + shaMaj a b c)
  (w32 (t1 + t2), a, b, c, w32 (d + t1), e, f, g)

/-- SHA-256 compression of one 64-byte block into an eight-word state. -/
def compress (hs : List Nat) (block : List Nat) : List Nat :=
  let ws := schedule block
  let init : Nat × Nat × Nat × Nat × Nat × Nat × Nat × Nat :=
    (hs.getD 0 0, hs.getD 1 0, hs.getD 2 0, hs.getD 3 0,
     hs.getD 4 0, hs.getD 5 0, hs.getD 6 0, hs.getD 7 0)
  let fin := (List.range 64).foldl (shaRound ws) init
  [w32 (hs.getD 0 0 + fin.1), w32 (hs.getD 1 0 + fin.2.1),
   w32 (hs.getD 2 0 + fin.2.2.1), w32 (hs.getD 3 0 + fin.2.2.2.1),
   w32 (hs.getD 4 0 + fin.2.2.2.2.1), w32 (hs.getD 5 0 + fin.2.2.2.2.2.1),
   w32 (hs.getD 6 0 + fin.2.2.2.2.2.2.1), w32 (hs.getD 7 0 + fin.2.2.2.2.2.2.2)]

/-- SHA-256 of a byte string, as the 32-byte digest. -/
def sha256 (msg : List Nat) : List Nat :=
  (((chunk64 (padMessage msg)).foldl compress shaH0).map (beBytes 4)).flatten

/-- The lowercase hexadecimal digit for a nibble: code point 48 is `0` and
code point 87 + 10 is `a`. -/
def hexChar (n : Nat) : Char :=
  if n < 10 then Char.ofNat (48 + n) else Char.ofNat (87 + n)

/-- The lowercase hexadecimal alphabet. -/
def hexChars : List Char := (List.range 16).map hexChar

/-- Two lowercase hexadecimal characters for one byte. -/
def byteHex (b : Nat) : List Char := [hexChar (b / 16 % 16), hexChar (b % 16)]

/-- Model of `hashlib`'s `hexdigest`: lowercase hexadecimal of a byte string. -/
def hexdigest (bytes : List Nat) : String := ⟨(bytes.map byteHex).flatten⟩

/-- UTF-8 encoding of a single code point. -/
def utf8Char (c : Nat) : List Nat :=
  if c < 128 then [c]
  else if c < 2048 then [192 + c / 64, 128 + c % 64]
  else if c < 65536 then [224 + c / 4096, 128 + c / 64 % 64, 128 + c % 64]
  else [240 + c / 262144, 128 + c / 4096 % 64, 128 + c / 64 % 64, 128 + c % 64]

/-- Model of Python's `str.encode()`: UTF-8 bytes of a string. -/
def strEncode (s : String) : List Nat :=
  (s.data.map fun ch => utf8Char ch.toNat).flatten

/-! ### Deterministic seed derivation (`core.derive_seed`) -/

/-- Model of `core.derive_seed`: SHA-256 over `master_seed`, `"|"`, the
namespace, `"|"` and the decimal index, truncated to the first eight digest
bytes read big-endian.  The byte `124` is `"|"`. -/
def derive_seed (master_seed ns : String) (idx : Nat) : Nat :=
  let digest := sha256 (strEncode master_seed ++ [124] ++ strEncode ns ++
    [124] ++ strEncode (toString idx))
  (digest.take 8).foldl (fun acc b => acc * 256 + b) 0

/-! ### The rule-of-three bound (`core.rule_of_three_upper_bound`) -/

/-- Model of `core.rule_of_three_upper_bound`: `3 / n` when no failures were
observed over a positive number of trials, and no bound otherwise.  The Python
float result is modelled as an exact rational. -/
def rule_of_three_upper_bound (failures n : Nat) : Option ℚ :=
  if failures = 0 ∧ 0 < n then some (3 / (n : ℚ)) else none

/-! ### Epistemic IR (`core.py` dataclasses)

The `Any`-typed slots of the Python dataclasses are modelled by type
parameters: `γ` is the type of domain parameter dictionaries, `α` the type of
generated inputs, `β` the type of implementation outputs, and `ρ` the state
type of a `random.Random` instance.  `details` dictionaries are modelled as
string-keyed association lists of strings. -/

/-- Model of `core.Domain`. -/
structure Domain (γ : Type) where
  name : String
  params : γ

/-- Model of `core.ProofArtifact`. -/
structure ProofArtifact where
  kind : String
  uri : String
  hash : Option String

/-- Model of `core.Claim`.  `trials` is a `Nat`: the trial budget is a
count (the `while i < trials` loop runs no trial for a non-positive value).
The `prior` dictionary is carried opaquely. -/
structure Claim (γ : Type) where
  id : String
  proposition : String
  domain : Domain γ
  adversary : String
  oracle : String
  power_alpha : ℚ
  trials : Nat
  stop_on_first_failure : Bool
  prior : List (String × String)
  proofs : List ProofArtifact

/-- Model of `core.TrialResult`. -/
structure TrialResult (α β : Type) where
  idx : Nat
  input_data : α
  output_data : β
  passed : Bool
  details : List (String × String)

/-- Model of `core.ClaimResult`.  `duration_sec` is fixed to `0`: wall-clock
time is outside the model. -/
structure ClaimResult (γ α β : Type) where
  claim : Claim γ
  failures : Nat
  trials_run : Nat
  sample_failures : List (TrialResult α β)
  upper95_failure_prob : Option ℚ
  rng_commit : String
  duration_sec : ℚ

/-- A Python exception escaping `parallel_trials`: either a `KeyError` from a
registry lookup (tagged with the capability kind determined by which registry
access raised) or an exception re-raised by `fut.result()` from inside a
trial. -/
inductive AletheiaError where
  | unknownCapability (kind : String) (name : String)
  | trialError (msg : String)
deriving DecidableEq

/-- A registered generator: draws from the seeded random source (threading its
state) and may raise.  Model of the `GEN_REGISTRY` value contract. -/
abbrev GenFn (ρ γ α : Type) := ρ → γ → Except String (α × ρ)

/-- A registered implementation under test: consumes the input and the random
source left by the generator, and may raise. -/
abbrev ImplFn (ρ α β : Type) := α → ρ → Except String (β × ρ)

/-- A registered oracle: judges an input/output pair, and may raise. -/
abbrev OracleFn (α β : Type) := α → β → Except String (Bool × List (String × String))

/-- A registry is a name-keyed lookup (a Python `dict` read). -/
abbrev Registry (v : Type) := String → Option v

/-! ### The falsification engine (`core.parallel_trials`)

Concurrency is abstracted by a completion-order parameter `perm`: for the
batch whose first trial index is `i`, `perm i idxs` is the order in which
`cf.as_completed` yields that batch's futures.  The theorems assume only that
`perm i idxs` is a permutation of `idxs`.  The `submitted` field of the
aggregation state records every index passed to `ex.submit`; since the
executor is shut down with `wait=True` and futures are never cancelled, every
submitted trial runs to completion. -/

variable {γ ρ α β : Type}

/-- Model of the inner `run_one` closure of `core.parallel_trials`: derive the
seed, build the random source, generate an input, run the implementation,
consult the oracle.  An exception anywhere propagates. -/
def run_one (gen : GenFn ρ γ α) (impl : ImplFn ρ α β) (oracle : OracleFn α β)
    (mkRng : Nat → ρ) (master_seed : String) (claim : Claim γ) (i : Nat) :
    Except String (TrialResult α β) :=
  let seed := derive_seed master_seed claim.id i
  let rng := mkRng seed
  match gen rng claim.domain.params with
  | .error e => .error e
  | .ok (inp, rng1) =>
    match impl inp rng1 with
    | .error e => .error e
    | .ok (out, _) =>
      match oracle inp out with
      | .error e => .error e
      | .ok (ok, details) =>
        .ok { idx := i, input_data := inp, output_data := out, passed := ok,
              details := details }

/-- The mutable aggregation state of the batch loop in `parallel_trials`. -/
structure AggState (α β : Type) where
  results : List (TrialResult α β)
  failures : Nat
  sample_failures : List (TrialResult α β)
  submitted : List Nat

/-- The initial aggregation state. -/
def initState : AggState α β := ⟨[], 0, [], []⟩

/-- Model of the `for fut in cf.as_completed(futs)` loop body: harvest the
batch's outcomes in completion order, appending each to `results`, counting
failures, sampling up to five failing outcomes, and breaking out after the
first failure when `stop` is set.  A trial exception re-raised by
`fut.result()` aborts the whole loop. -/
def harvestBatch (runOne : Nat → Except String (TrialResult α β)) (stop : Bool) :
    List Nat → AggState α β → Except AletheiaError (AggState α β)
  | [], st => .ok st
  | j :: rest, st =>
    match runOne j with
    | .error e => .error (.trialError e)
    | .ok tr =>
      let st1 := { st with results := st.results ++ [tr] }
      if tr.passed then
        harvestBatch runOne stop rest st1
      else
        let st2 := { st1 with
          failures := st1.failures + 1,
          sample_failures :=
            if st1.sample_failures.length < 5 then st1.sample_failures ++ [tr]
            else st1.sample_failures }
        if stop then .ok st2 else harvestBatch runOne stop rest st2

/-- The trial indices of the batch starting at `i`:
`list(range(i, min(i + batch, trials)))` with `batch = 128`. -/
def batchIdxs (trials i : Nat) : List Nat :=
  List.range' i (min (i + 128) trials - i)

/-- The successive batches dispatched by the `while i < trials` loop, starting
at index `i`, each reordered by the completion-order parameter `perm`. -/
def orderedBatchesFrom (perm : Nat → List Nat → List Nat) (trials i : Nat) :
    List (List Nat) :=
  if _h : i < trials then
    perm i (batchIdxs trials i) :: orderedBatchesFrom perm trials (i + 128)
  else []
termination_by trials - i
decreasing_by omega

/-- Model of the `while i < claim.trials` loop of `parallel_trials`: submit a
batch, harvest it in completion order, and break once a failure has been
observed under `stop_on_first_failure`. -/
def trialLoop (runOne : Nat → Except String (TrialResult α β)) (stop : Bool) :
    List (List Nat) → AggState α β → Except AletheiaError (AggState α β)
  | [], st => .ok st
  | idxs :: rest, st =>
    match harvestBatch runOne stop idxs { st with submitted := st.submitted ++ idxs } with
    | .error e => .error e
    | .ok st1 => if st1.failures ≠ 0 ∧ stop then .ok st1
                 else trialLoop runOne stop rest st1

/-- The `rng_commit` field:
`hashlib.sha256((master_seed + "|" + claim.id + "|" + impl_name).encode()).hexdigest()`. -/
def rng_commit_hash (master_seed id impl_name : String) : String :=
  hexdigest (sha256 (strEncode (master_seed ++ "|" ++ id ++ "|" ++ impl_name)))

/-- The registry lookups and the batch loop of `core.parallel_trials`, up to
the final aggregation state.  A `KeyError` from any of the three lookups
aborts before any trial is dispatched. -/
def parallel_trials_state (genReg : Registry (GenFn ρ γ α))
    (oracleReg : Registry (OracleFn α β)) (implReg : Registry (ImplFn ρ α β))
    (mkRng : Nat → ρ) (perm : Nat → List Nat → List Nat)
    (claim : Claim γ) (impl_name : String) (master_seed : String) :
    Except AletheiaError (AggState α β) :=
  match genReg claim.adversary with
  | none => .error (.unknownCapability "generator" claim.adversary)
  | some gen =>
    match oracleReg claim.oracle with
    | none => .error (.unknownCapability "oracle" claim.oracle)
    | some oracle =>
      match implReg impl_name with
      | none => .error (.unknownCapability "implementation" impl_name)
      | some impl =>
        trialLoop (run_one gen impl oracle mkRng master_seed claim)
          claim.stop_on_first_failure (orderedBatchesFrom perm claim.trials 0)
          initState

/-- Model of `core.parallel_trials`: run the batch loop and assemble the
`ClaimResult`, with `trials_run = len(results)` and the rule-of-three bound
computed from the observed counts. -/
def parallel_trials (genReg : Registry (GenFn ρ γ α))
    (oracleReg : Registry (OracleFn α β)) (implReg : Registry (ImplFn ρ α β))
    (mkRng : Nat → ρ) (perm : Nat → List Nat → List Nat)
    (claim : Claim γ) (impl_name : String) (master_seed : String) :
    Except AletheiaError (ClaimResult γ α β) :=
  match parallel_trials_state genReg oracleReg implReg mkRng perm claim
      impl_name master_seed with
  | .error e => .error e
  | .ok st =>
    .ok { claim := claim, failures := st.failures,
          trials_run := st.results.length,
          sample_failures := st.sample_failures,
          upper95_failure_prob :=
            rule_of_three_upper_bound st.failures st.results.length,
          rng_commit := rng_commit_hash master_seed claim.id impl_name,
          duration_sec := 0 }

/-! ### Oracles (`oracles.py`) -/

/-- Model of `oracles.is_sorted`:
`all(a[i] <= a[i+1] for i in range(len(a)-1))`. -/
def is_sorted (a : List Int) : Bool :=
  (List.range (a.length - 1)).all fun i => decide (a.getD i 0 ≤ a.getD (i + 1) 0)

/-- Model of `oracles.is_permutation`: `Counter(a) == Counter(b)`, i.e. the two
lists agree as multisets. -/
def is_permutation (a b : List Int) : Bool :=
  decide ((a : Multiset Int) = (b : Multiset Int))

/-- Model of the registered `"sort_correctness"` oracle.  The `isinstance(out,
list)` check is always true in the typed model. -/
def sort_correctness_oracle : OracleFn (List Int) (List Int) := fun inp out =>
  let ok := is_sorted out && is_permutation inp out
  .ok (ok, if ok then [] else [("reason", "not_sorted_or_not_permutation")])

/-! ### Implementations under test (`plugins.py`) -/

/-- Model of `plugins.quicksort_3way` (registered as `"quicksort3"`): pivot on
the middle element, partition into strictly-smaller, equal and
strictly-greater sublists, and recurse on the outer two. -/
def quicksort3way (a : List Int) : List Int :=
  if h : a.length ≤ 1 then a
  else
    have hmid : a.length / 2 < a.length := Nat.div_lt_self (by omega) (by decide)
    let pivot := a.get ⟨a.length / 2, hmid⟩
    quicksort3way (a.filter fun x => decide (x < pivot)) ++
      (a.filter fun x => decide (x = pivot)) ++
      quicksort3way (a.filter fun x => decide (pivot < x))
termination_by a.length
decreasing_by
  · exact List.length_filter_lt_length_iff_exists.mpr
      ⟨a.get ⟨a.length / 2, hmid⟩, a.get_mem _ _, by simp⟩
  · exact List.length_filter_lt_length_iff_exists.mpr
      ⟨a.get ⟨a.length / 2, hmid⟩, a.get_mem _ _, by simp⟩

/-- The `"quicksort3"` implementation as a registry value: it ignores the
random source. -/
def quicksort3_impl : ImplFn ρ (List Int) (List Int) := fun a rng =>
  .ok (quicksort3way a, rng)

/-! ### Beta-Bernoulli belief state (`aletheia_epicompiler.BetaBernoulliClaim`) -/

/-- Model of `BetaBernoulliClaim`: a Beta posterior over a Bernoulli success
probability, with the outcome history. -/
structure BetaBernoulliClaim where
  name : String
  alpha : ℚ
  beta : ℚ
  history : List Nat

/-- Model of `BetaBernoulliClaim.update`: append the outcome to the history
and increment `alpha` on outcome `1`, `beta` otherwise. -/
def BetaBernoulliClaim.update (c : BetaBernoulliClaim) (outcome : Nat) :
    BetaBernoulliClaim :=
  { c with history := c.history ++ [outcome],
           alpha := if outcome = 1 then c.alpha + 1 else c.alpha,
           beta := if outcome = 1 then c.beta else c.beta + 1 }

/-- Model of `BetaBernoulliClaim.posterior_mean`. -/
def BetaBernoulliClaim.posterior_mean (c : BetaBernoulliClaim) : ℚ :=
  c.alpha / (c.alpha + c.beta)

/-! ### JSON values and canonical serialization (`json.dumps(..., sort_keys=True,
separators=(",", ":"))`, used by `core.certificate_hash` and
`anchoring.certificate_hash_json`)

Python numbers are split into `int` and `flt`; the float decimal
representation is abstracted by `ratRepr` (the canonicalization properties
proved below do not depend on how a number is rendered).  Objects carry their
fields in insertion order, as Python dicts do. -/

/-- A JSON value, the model of the dict trees fed to `json.dumps`. -/
inductive Json where
  | str (s : String)
  | int (n : ℤ)
  | num (q : ℚ)
  | bool (b : Bool)
  | null
  | arr (elems : List Json)
  | obj (fields : List (String × Json))

/-- Lexicographic comparison of code-point sequences, the order Python's
`sorted` uses on `str` keys. -/
def charsLe : List Char → List Char → Bool
  | [], _ => true
  | _ :: _, [] => false
  | x :: xs, y :: ys =>
    if x < y then true
    else if x = y then charsLe xs ys
    else false

/-- Key comparison on strings. -/
def keyLe (a b : String) : Bool := charsLe a.data b.data

/-- The sort relation on object fields: compare keys only. -/
def fieldRel (p q : String × Json) : Prop := keyLe p.1 q.1 = true

instance : DecidableRel fieldRel := fun p q => instDecidableEqBool _ _

/-- Model of Python's stable `sorted(dict.items())` on object fields. -/
def sortByKey (l : List (String × Json)) : List (String × Json) :=
  List.insertionSort fieldRel l

/-- Four lowercase hexadecimal characters of a 16-bit value, as in a JSON
`\uXXXX` escape. -/
def hex4 (n : Nat) : List Char :=
  [hexChar (n / 4096 % 16), hexChar (n / 256 % 16), hexChar (n / 16 % 16),
   hexChar (n % 16)]

/-- JSON escaping of one character, following `json.dumps` with the default
`ensure_ascii=True` (code points above the BMP would use surrogate pairs;
certificate strings are within the BMP). -/
def escapeChar (c : Char) : List Char :=
  if c = '"' then ['\\', '"']
  else if c = '\\' then ['\\', '\\']
  else if c = '\n' then ['\\', 'n']
  else if c = '\t' then ['\\', 't']
  else if c = '\r' then ['\\', 'r']
  else if c.toNat < 32 then '\\' :: 'u' :: hex4 c.toNat
  else if c.toNat < 127 then [c]
  else '\\' :: 'u' :: hex4 c.toNat

/-- A JSON string literal: quotes around the escaped characters. -/
def jsonStringLit (s : String) : String :=
  ⟨'"' :: (s.data.map escapeChar).flatten ++ ['"']⟩

/-- Decimal rendering of a float value (model of `repr(float)`); the
canonicalization theorems do not depend on this rendering. -/
def ratRepr (q : ℚ) : String := toString q.num ++ "e" ++ toString q.den

/-- Model of `json.dumps(value, sort_keys=True, separators=(",", ":"))`: the
canonical whitespace-free serialization with each object's fields serialized
in sorted key order. -/
def jsonDumps : Json → String
  | .str s => jsonStringLit s
  | .int n => toString n
  | .num q => ratRepr q
  | .bool b => if b then "true" else "false"
  | .null => "null"
  | .arr xs =>
    "[" ++ String.intercalate "," (xs.attach.map fun x => jsonDumps x.1) ++ "]"
  | .obj fs =>
    "\x7b" ++ String.intercalate ","
      ((sortByKey fs).attach.map fun p =>
        jsonStringLit p.1.1 ++ ":" ++ jsonDumps p.1.2) ++ "\x7d"
termination_by j => sizeOf j
decreasing_by
  · have hx := List.sizeOf_lt_of_mem x.2
    simp only [Json.arr.sizeOf_spec]
    omega
  · have hmem : p.1 ∈ fs := (List.perm_insertionSort fieldRel fs).subset p.2
    have hx := List.sizeOf_lt_of_mem hmem
    have hp : sizeOf p.1.2 < sizeOf p.1 := by
      obtain ⟨k, v⟩ := p.1
      simp
    simp only [Json.obj.sizeOf_spec]
    omega

/-- Recursive key-sorting of a JSON value.  Two values have equal `canon`
images exactly when, at every level, their objects carry the same key-to-value
mappings irrespective of insertion order; this is the formal reading of
"equal as mappings". -/
def Json.canon : Json → Json
  | .str s => .str s
  | .int n => .int n
  | .num q => .num q
  | .bool b => .bool b
  | .null => .null
  | .arr xs => .arr (xs.attach.map fun x => Json.canon x.1)
  | .obj fs => .obj (sortByKey (fs.attach.map fun p => (p.1.1, Json.canon p.1.2)))
termination_by j => sizeOf j
decreasing_by
  · have hx := List.sizeOf_lt_of_mem x.2
    simp only [Json.arr.sizeOf_spec]
    omega
  · have hx := List.sizeOf_lt_of_mem p.2
    have hp : sizeOf p.1.2 < sizeOf p.1 := by
      obtain ⟨k, v⟩ := p.1
      simp
    simp only [Json.obj.sizeOf_spec]
    omega

/-! ### Certificates (`core.BeliefCertificate`, `core.certificate_hash`,
`anchoring.certificate_hash_json`) -/

/-- Model of `core.BeliefCertificate`: the per-claim and per-proof summary
dictionaries are carried as JSON values. -/
structure BeliefCertificate where
  certVersion : String
  programHash : String
  machine : String
  createdAt : ℚ
  claims : List Json
  proofs : List Json

/-- Model of `dataclasses.asdict` on a `BeliefCertificate`: the field order is
the dataclass declaration order. -/
def asdictCert (c : BeliefCertificate) : Json :=
  .obj [("certVersion", .str c.certVersion), ("programHash", .str c.programHash),
        ("machine", .str c.machine), ("createdAt", .num c.createdAt),
        ("claims", .arr c.claims), ("proofs", .arr c.proofs)]

/-- Model of `anchoring.certificate_hash_json`: canonical JSON serialization,
UTF-8 encoded, SHA-256 hashed, rendered as `0x` plus lowercase hex. -/
def certificate_hash_json (j : Json) : String :=
  "0x" ++ hexdigest (sha256 (strEncode (jsonDumps j)))

/-- Model of `core.certificate_hash`. -/
def certificate_hash (c : BeliefCertificate) : String :=
  certificate_hash_json (asdictCert c)

/-- The number of failing outcomes in a list of trial outcomes. -/
def countFails (l : List (TrialResult α β)) : Nat :=
  (l.filter fun tr => !tr.passed).length

/-! ### Concrete registries and claims used by witnesses and counterexamples -/

/-- A generator that always returns the empty list. -/
def cexGenNil : Registry (GenFn Nat Unit (List Int)) := fun n =>
  if n = "gname" then some (fun rng _ => .ok ([], rng)) else none

/-- A generator that always raises. -/
def cexGenErr : Registry (GenFn Nat Unit (List Int)) := fun n =>
  if n = "gname" then some (fun _ _ => .error "boom") else none

/-- An oracle that passes every pair. -/
def cexOraclePass : Registry (OracleFn (List Int) (List Int)) := fun n =>
  if n = "oname" then some (fun _ _ => .ok (true, [])) else none

/-- An oracle that fails every pair. -/
def cexOracleFail : Registry (OracleFn (List Int) (List Int)) := fun n =>
  if n = "oname" then some (fun _ _ => .ok (false, [])) else none

/-- An identity implementation under test. -/
def cexImplId : Registry (ImplFn Nat (List Int) (List Int)) := fun n =>
  if n = "iname" then some (fun a r => .ok (a, r)) else none

/-- A two-trial claim with `stop_on_first_failure = true`. -/
def c1Claim : Claim Unit :=
  ⟨"cid", "prop", ⟨"dom", ()⟩, "gname", "oname", 1 / 20, 2, true, [], []⟩

/-- The outcome of every trial of `c1Claim` under `cexGenNil`, `cexImplId`
and `cexOracleFail`, at index `0`. -/
def c1tr : TrialResult (List Int) (List Int) := ⟨0, [], [], false, []⟩

/-- A five-trial claim with `stop_on_first_failure = false`. -/
def c5Claim : Claim Unit :=
  ⟨"cid5", "prop", ⟨"dom", ()⟩, "gname", "oname", 1 / 20, 5, false, [], []⟩

/-- An empty generator registry for the witness instantiations. -/
def emptyGenReg : Registry (GenFn Nat Unit (List Int)) := fun _ => none

/-- An empty oracle registry for the witness instantiations. -/
def emptyOracleReg : Registry (OracleFn (List Int) (List Int)) := fun _ => none

/-- An empty implementation registry for the witness instantiations. -/
def emptyImplReg : Registry (ImplFn Nat (List Int) (List Int)) := fun _ => none

/-- A concrete claim used by witness instantiations. -/
def demoClaim : Claim Unit :=
  ⟨"sorts_correctly", "output is a sorted permutation", ⟨"int_arrays", ()⟩,
   "gname", "oname", 1 / 20, 3, true, [], []⟩

/-- The result of evaluating `demoClaim` under `cexGenNil`, `cexImplId` and
`cexOraclePass`: three trials observed, none failing. -/
def c1WitnessResult : ClaimResult Unit (List Int) (List Int) :=
  ⟨demoClaim, 0, 3, [], rule_of_three_upper_bound 0 3,
   rng_commit_hash "ms" "sorts_correctly" "iname", 0⟩

/-- A registry holding one constant generator under the adversary name used
by `qsClaim`. -/
def qsGenReg : Registry (GenFn Nat Unit (List Int)) := fun n =>
  if n = "dup_heavy_small" then some (fun rng _ => .ok ([3, 1, 2, 1], rng))
  else none

/-- A registry holding the `"sort_correctness"` oracle. -/
def qsOracleReg : Registry (OracleFn (List Int) (List Int)) := fun n =>
  if n = "sort_correctness" then some sort_correctness_oracle else none

/-- A registry holding the `"quicksort3"` implementation. -/
def qsImplReg : Registry (ImplFn Nat (List Int) (List Int)) := fun n =>
  if n = "quicksort3" then some quicksort3_impl else none

/-- The sorting-correctness claim against `"quicksort3"`. -/
def qsClaim : Claim Unit :=
  ⟨"sorts_correctly", "quicksort3 sorts", ⟨"int_arrays", ()⟩,
   "dup_heavy_small", "sort_correctness", 1 / 20, 4, true, [], []⟩

/-- A JSON object with fields inserted in one order. -/
def demoJson1 : Json := .obj [("b", .int 1), ("a", .int 2)]

/-- The same mapping with fields inserted in the other order. -/
def demoJson2 : Json := .obj [("a", .int 2), ("b", .int 1)]

/-- The generator of the silent-drop scenario: succeed on every trial,
passing the per-trial rng through unchanged. -/
def c2gen : GenFn Nat Unit Unit := fun rng _ => .ok ((), rng)

/-- The implementation of the silent-drop scenario: raise on every trial
except the one whose derived seed is that of trial `0` of `c1Claim` under
master seed `"ms"`. -/
def c2impl : ImplFn Nat Unit Unit := fun _ rng =>
  if rng = derive_seed "ms" "cid" 0 then .ok ((), rng) else .error "boom"

/-- An oracle that fails every pair, at the types of the silent-drop
scenario. -/
def c2oracle : OracleFn Unit Unit := fun _ _ => .ok (false, [])

/-- Registry holding `c2gen` under the adversary name of `c1Claim`. -/
def c2GenReg : Registry (GenFn Nat Unit Unit) := fun n =>
  if n = "gname" then some c2gen else none

/-- Registry holding `c2oracle` under the oracle name of `c1Claim`. -/
def c2OracleReg : Registry (OracleFn Unit Unit) := fun n =>
  if n = "oname" then some c2oracle else none

/-- Registry holding `c2impl` under the implementation name `"iname"`. -/
def c2ImplReg : Registry (ImplFn Nat Unit Unit) := fun n =>
  if n = "iname" then some c2impl else none

/-- The outcome of trial `0` of `c1Claim` under `c2gen`, `c2impl` and
`c2oracle`. -/
def c2tr : TrialResult Unit Unit := ⟨0, (), (), false, []⟩

/-! ### Byte-range lemmas for the digest -/

/-- Every byte produced by `beBytes` is below 256. -/
theorem beBytes_lt (k n : Nat) : ∀ b ∈ beBytes k n, b < 256 := by
  intro b hb
  simp only [beBytes, List.mem_map] at hb
  obtain ⟨i, _, rfl⟩ := hb
  exact Nat.mod_lt _ (by decide)

/-- Every byte of a SHA-256 digest is below 256. -/
theorem sha256_bytes_lt (msg : List Nat) : ∀ b ∈ sha256 msg, b < 256 := by
  intro b hb
  simp only [sha256, List.mem_flatten, List.mem_map] at hb
  obtain ⟨l, ⟨w, _, rfl⟩, hbl⟩ := hb
  exact beBytes_lt _ _ b hbl

/-- Big-endian accumulation of bytes below 256 stays below the positional
bound. -/
theorem foldl_base256_lt : ∀ (l : List Nat) (acc : Nat), (∀ b ∈ l, b < 256) →
    l.foldl (fun a b => a * 256 + b) acc < (acc + 1) * 256 ^ l.length := by
  intro l
  induction l with
  | nil => intro acc _; simpa using Nat.lt_succ_self acc
  | cons b t ih =>
    intro acc h
    have hb : b < 256 := h b (List.mem_cons_self _ _)
    have ht := ih (acc * 256 + b) fun x hx => h x (List.mem_cons_of_mem _ hx)
    have hstep : (acc * 256 + b + 1) * 256 ^ t.length ≤
        (acc + 1) * 256 ^ (t.length + 1) := by
      have h1 : acc * 256 + b + 1 ≤ (acc + 1) * 256 := by nlinarith
      calc (acc * 256 + b + 1) * 256 ^ t.length
          ≤ (acc + 1) * 256 * 256 ^ t.length := Nat.mul_le_mul_right _ h1
        _ = (acc + 1) * 256 ^ (t.length + 1) := by ring
    calc (b :: t).foldl (fun a x => a * 256 + x) acc
        = t.foldl (fun a x => a * 256 + x) (acc * 256 + b) := by
          simp [List.foldl_cons]
      _ < (acc * 256 + b + 1) * 256 ^ t.length := ht
      _ ≤ (acc + 1) * 256 ^ (t.length + 1) := hstep
      _ = (acc + 1) * 256 ^ (b :: t).length := by simp

/-- A derived seed fits in 64 bits. -/
theorem derive_seed_lt (master_seed ns : String) (idx : Nat) :
    derive_seed master_seed ns idx < 2 ^ 64 := by
  rw [derive_seed]
  set digest := sha256 (strEncode master_seed ++ [124] ++ strEncode ns ++
    [124] ++ strEncode (toString idx)) with hd
  have hbytes : ∀ b ∈ digest.take 8, b < 256 := fun b hb =>
    sha256_bytes_lt _ b (List.take_subset 8 digest hb)
  have hfold := foldl_base256_lt (digest.take 8) 0 hbytes
  have hlen : (digest.take 8).length ≤ 8 := List.length_take_le 8 digest
  have hpow : 256 ^ (digest.take 8).length ≤ 256 ^ 8 :=
    Nat.pow_le_pow_right (by decide) hlen
  have h64 : (256 : Nat) ^ 8 = 2 ^ 64 := by norm_num
  calc (digest.take 8).foldl (fun acc b => acc * 256 + b) 0
      < (0 + 1) * 256 ^ (digest.take 8).length := hfold
    _ = 256 ^ (digest.take 8).length := by ring
    _ ≤ 256 ^ 8 := hpow
    _ = 2 ^ 64 := h64

/-! ### Claim C3 -/

/-- C3: `derive_seed` is a deterministic pure function of its three arguments
(so its value is independent of process, thread, call order and concurrency
level, all of which are outside the function's inputs), and it returns a
64-bit integer. -/
theorem derive_seed_deterministic (m₁ n₁ : String) (i₁ : Nat) (m₂ n₂ : String)
    (i₂ : Nat) (hm : m₁ = m₂) (hn : n₁ = n₂) (hi : i₁ = i₂) :
    derive_seed m₁ n₁ i₁ = derive_seed m₂ n₂ i₂ ∧
      derive_seed m₁ n₁ i₁ < 2 ^ 64 :=
  ⟨by rw [hm, hn, hi], derive_seed_lt m₁ n₁ i₁⟩

/-- Witness for C3 at a concrete input. -/
theorem derive_seed_deterministic_witness :
    derive_seed "seed" "claimA" 7 = derive_seed "seed" "claimA" 7 ∧
      derive_seed "seed" "claimA" 7 < 2 ^ 64 :=
  derive_seed_deterministic "seed" "claimA" 7 "seed" "claimA" 7 rfl rfl rfl

/-! ### Claims C4 and C10 -/

/-- C4: with zero failures over a positive trial count the rule-of-three
calculator returns exactly `3 / n`, and with a positive failure count it
returns no bound. -/
theorem rule_of_three_spec (failures n : Nat) :
    (failures = 0 → 0 < n →
      rule_of_three_upper_bound failures n = some (3 / (n : ℚ))) ∧
    (0 < failures → rule_of_three_upper_bound failures n = none) := by
  constructor
  · intro h0 hn
    rw [rule_of_three_upper_bound, if_pos ⟨h0, hn⟩]
  · intro hf
    rw [rule_of_three_upper_bound, if_neg]
    rintro ⟨h0, -⟩
    omega

/-- Witness for C4 at concrete counts. -/
theorem rule_of_three_spec_witness :
    rule_of_three_upper_bound 0 4 = some (3 / ((4 : Nat) : ℚ)) ∧
      rule_of_three_upper_bound 2 5 = none :=
  ⟨(rule_of_three_spec 0 4).1 rfl (by decide),
   (rule_of_three_spec 2 5).2 (by decide)⟩

/-- C10: the rule-of-three calculator is total (it is a Lean function into
`Option ℚ`, so it cannot raise or divide by zero) and produces a bound only
when `failures = 0` and `n > 0`; in particular at `failures = 0`, `n = 0` it
returns `none`. -/
theorem rule_of_three_total :
    (∀ failures n : Nat, (rule_of_three_upper_bound failures n).isSome = true →
      failures = 0 ∧ 0 < n) ∧
    rule_of_three_upper_bound 0 0 = none := by
  constructor
  · intro f n h
    by_contra hc
    rw [rule_of_three_upper_bound, if_neg hc] at h
    simp at h
  · rw [rule_of_three_upper_bound, if_neg]
    rintro ⟨-, h⟩
    omega

/-- Witness for C10 at concrete counts. -/
theorem rule_of_three_total_witness :
    (rule_of_three_upper_bound 0 5).isSome = true ∧ (0 = 0 ∧ 0 < 5) :=
  ⟨by decide, rule_of_three_total.1 0 5 (by decide)⟩

/-! ### Claim C9 -/

/-- C9: a Beta-Bernoulli update increments `alpha` on outcome `1` and `beta`
on outcome `0`, the posterior mean is `alpha / (alpha + beta)`, and ten
successive `1` outcomes starting from `Beta(1, 1)` give posterior mean
`11 / 12`. -/
theorem beta_bernoulli_spec :
    (∀ (c : BetaBernoulliClaim) (o : Nat), o = 1 →
      (c.update o).alpha = c.alpha + 1 ∧ (c.update o).beta = c.beta) ∧
    (∀ (c : BetaBernoulliClaim) (o : Nat), o = 0 →
      (c.update o).beta = c.beta + 1 ∧ (c.update o).alpha = c.alpha) ∧
    (∀ c : BetaBernoulliClaim, c.posterior_mean = c.alpha / (c.alpha + c.beta)) ∧
    ((List.replicate 10 1).foldl BetaBernoulliClaim.update
        ⟨"QS3", 1, 1, []⟩).posterior_mean = 11 / 12 := by
  refine ⟨?_, ?_, fun c => rfl, ?_⟩
  · rintro c o rfl
    exact ⟨rfl, rfl⟩
  · rintro c o rfl
    refine ⟨?_, ?_⟩ <;> simp [BetaBernoulliClaim.update]
  · norm_num [List.replicate, BetaBernoulliClaim.update,
      BetaBernoulliClaim.posterior_mean]

/-- Witness for C9 at a concrete belief state. -/
theorem beta_bernoulli_spec_witness :
    ((⟨"b", 2, 5, []⟩ : BetaBernoulliClaim).update 1).alpha = 2 + 1 ∧
      ((⟨"b", 2, 5, []⟩ : BetaBernoulliClaim).update 1).beta = 5 :=
  beta_bernoulli_spec.1 ⟨"b", 2, 5, []⟩ 1 rfl

/-! ### Claim C7 -/

/-- C7: an unregistered generator, oracle or implementation name makes the
evaluation fail with an `unknownCapability` error naming the capability kind
and the missing name.  The lookups happen before the batch loop, so the
overall result is the error itself: no trial runs and no partial
`ClaimResult` is produced. -/
theorem unknown_capability_fatal (genReg : Registry (GenFn ρ γ α))
    (oracleReg : Registry (OracleFn α β)) (implReg : Registry (ImplFn ρ α β))
    (mkRng : Nat → ρ) (perm : Nat → List Nat → List Nat) (claim : Claim γ)
    (impl_name master_seed : String) :
    (genReg claim.adversary = none →
      parallel_trials genReg oracleReg implReg mkRng perm claim impl_name
          master_seed =
        .error (.unknownCapability "generator" claim.adversary)) ∧
    (∀ g, genReg claim.adversary = some g → oracleReg claim.oracle = none →
      parallel_trials genReg oracleReg implReg mkRng perm claim impl_name
          master_seed =
        .error (.unknownCapability "oracle" claim.oracle)) ∧
    (∀ g o, genReg claim.adversary = some g → oracleReg claim.oracle = some o →
      implReg impl_name = none →
      parallel_trials genReg oracleReg implReg mkRng perm claim impl_name
          master_seed =
        .error (.unknownCapability "implementation" impl_name)) := by
  refine ⟨fun hg => ?_, fun g hg ho => ?_, fun g o hg ho hi => ?_⟩
  · rw [parallel_trials, parallel_trials_state, hg]
  · rw [parallel_trials, parallel_trials_state, hg, ho]
  · rw [parallel_trials, parallel_trials_state, hg, ho, hi]

/-- Witness for C7: the empty registries make the lookup fail. -/
theorem unknown_capability_fatal_witness :
    parallel_trials emptyGenReg emptyOracleReg emptyImplReg id (fun _ l => l)
        demoClaim "iname" "ms" =
      .error (.unknownCapability "generator" "gname") :=
  (unknown_capability_fatal emptyGenReg emptyOracleReg emptyImplReg id
    (fun _ l => l) demoClaim "iname" "ms").1 rfl

/-! ### Invariants of the batch loop -/

/-- Unfolding equation for the batch list. -/
theorem orderedBatchesFrom_eq (perm : Nat → List Nat → List Nat) (trials i : Nat) :
    orderedBatchesFrom perm trials i =
      if i < trials then
        perm i (batchIdxs trials i) :: orderedBatchesFrom perm trials (i + 128)
      else [] := by
  rw [orderedBatchesFrom]
  split <;> rfl

/-- Counting failures distributes over appending outcome lists. -/
theorem countFails_append (l₁ l₂ : List (TrialResult α β)) :
    countFails (l₁ ++ l₂) = countFails l₁ + countFails l₂ := by
  simp [countFails]

/-- A successful `run_one` call reports the trial index it was given. -/
theorem run_one_idx (gen : GenFn ρ γ α) (impl : ImplFn ρ α β)
    (oracle : OracleFn α β) (mkRng : Nat → ρ) (master_seed : String)
    (claim : Claim γ) (i : Nat) (tr : TrialResult α β)
    (h : run_one gen impl oracle mkRng master_seed claim i = .ok tr) :
    tr.idx = i := by
  simp only [run_one] at h
  repeat' split at h
  any_goals cases h
  rfl

/-- What one harvested batch adds to the aggregation state: a consecutive
record of outcomes whose indices form a sublist of the batch, with the failure
counter advanced by exactly the number of failing outcomes among them; the
`submitted` record is untouched. -/
theorem harvestBatch_ok {runOne : Nat → Except String (TrialResult α β)}
    {stop : Bool} (hidx : ∀ i tr, runOne i = .ok tr → tr.idx = i) :
    ∀ (idxs : List Nat) (st st' : AggState α β),
    harvestBatch runOne stop idxs st = .ok st' →
    ∃ new : List (TrialResult α β),
      st'.results = st.results ++ new ∧
      st'.failures = st.failures + countFails new ∧
      (new.map TrialResult.idx).Sublist idxs ∧
      (∀ tr ∈ new, runOne tr.idx = .ok tr) ∧
      st'.submitted = st.submitted := by
  intro idxs
  induction idxs with
  | nil =>
    intro st st' h
    simp only [harvestBatch, Except.ok.injEq] at h
    exact ⟨[], by simp [← h], by simp [← h, countFails], by simp, by simp,
      by simp [← h]⟩
  | cons j rest ih =>
    intro st st' h
    simp only [harvestBatch] at h
    split at h
    · cases h
    · rename_i tr hr
      have hj : tr.idx = j := hidx j tr hr
      by_cases hp : tr.passed
      · rw [if_pos hp] at h
        obtain ⟨new, h1, h2, h3, h4, h5⟩ := ih _ _ h
        refine ⟨tr :: new, ?_, ?_, ?_, ?_, h5⟩
        · rw [h1]; simp
        · rw [h2]; simp [countFails, hp]
        · rw [List.map_cons, hj]
          exact h3.cons₂ j
        · intro x hx
          rcases List.mem_cons.mp hx with rfl | hx
          · rw [hj]; exact hr
          · exact h4 x hx
      · rw [if_neg hp] at h
        by_cases hs : stop
        · rw [if_pos hs, Except.ok.injEq] at h
          refine ⟨[tr], ?_, ?_, ?_, ?_, ?_⟩
          · rw [← h]
          · rw [← h]; simp [countFails, hp]
          · rw [List.map_singleton, hj]
            exact (List.nil_sublist rest).cons₂ j
          · intro x hx
            rcases List.mem_singleton.mp hx with rfl
            rw [hj]; exact hr
          · rw [← h]
        · rw [if_neg hs] at h
          obtain ⟨new, h1, h2, h3, h4, h5⟩ := ih _ _ h
          refine ⟨tr :: new, ?_, ?_, ?_, ?_, h5⟩
          · rw [h1]; simp
          · rw [h2]; simp [countFails, hp]; omega
          · rw [List.map_cons, hj]
            exact h3.cons₂ j
          · intro x hx
            rcases List.mem_cons.mp hx with rfl | hx
            · rw [hj]; exact hr
            · exact h4 x hx

/-- What the whole batch loop adds to the aggregation state (same shape as
`harvestBatch_ok`, with indices drawn from the flattened batch list). -/
theorem trialLoop_ok {runOne : Nat → Except String (TrialResult α β)}
    {stop : Bool} (hidx : ∀ i tr, runOne i = .ok tr → tr.idx = i) :
    ∀ (bl : List (List Nat)) (st st' : AggState α β),
    trialLoop runOne stop bl st = .ok st' →
    ∃ new : List (TrialResult α β),
      st'.results = st.results ++ new ∧
      st'.failures = st.failures + countFails new ∧
      (new.map TrialResult.idx).Sublist bl.flatten ∧
      (∀ tr ∈ new, runOne tr.idx = .ok tr) := by
  intro bl
  induction bl with
  | nil =>
    intro st st' h
    simp only [trialLoop, Except.ok.injEq] at h
    exact ⟨[], by simp [← h], by simp [← h, countFails], by simp, by simp⟩
  | cons idxs rest ih =>
    intro st st' h
    simp only [trialLoop] at h
    split at h
    · cases h
    · rename_i st1 hh
      obtain ⟨n1, a1, a2, a3, a4, a5⟩ := harvestBatch_ok hidx idxs _ _ hh
      dsimp only at a1 a2 a5
      by_cases hbr : st1.failures ≠ 0 ∧ stop = true
      · rw [if_pos hbr, Except.ok.injEq] at h
        subst h
        exact ⟨n1, a1, a2, a3.trans (List.sublist_append_left _ _), a4⟩
      · rw [if_neg hbr] at h
        obtain ⟨n2, b1, b2, b3, b4⟩ := ih _ _ h
        refine ⟨n1 ++ n2, ?_, ?_, ?_, ?_⟩
        · rw [b1, a1]; simp
        · rw [b2, a2, countFails_append]; omega
        · rw [List.map_append, List.flatten_cons]
          exact a3.append b3
        · intro x hx
          rcases List.mem_append.mp hx with hx | hx
          · exact a4 x hx
          · exact b4 x hx

/-- The flattened batch list starting at `i` is a permutation of the remaining
trial indices `i, …, trials - 1`, for any per-batch completion order. -/
theorem orderedBatchesFrom_flatten_perm (perm : Nat → List Nat → List Nat)
    (hperm : ∀ i idxs, (perm i idxs).Perm idxs) (trials : Nat) :
    ∀ (n i : Nat), trials - i ≤ n →
    ((orderedBatchesFrom perm trials i).flatten).Perm
      (List.range' i (trials - i)) := by
  intro n
  induction n with
  | zero =>
    intro i hi
    rw [orderedBatchesFrom_eq, if_neg (by omega)]
    simp [show trials - i = 0 by omega]
  | succ n ih =>
    intro i hi
    by_cases h : i < trials
    · rw [orderedBatchesFrom_eq, if_pos h, List.flatten_cons]
      have h1 : (perm i (batchIdxs trials i)).Perm (batchIdxs trials i) :=
        hperm _ _
      have h2 := ih (i + 128) (by omega)
      have hsplit : List.range' i (trials - i) =
          batchIdxs trials i ++ List.range' (i + 128) (trials - (i + 128)) := by
        rw [batchIdxs]
        rcases le_or_lt (i + 128) trials with hle | hlt
        · rw [min_eq_left hle, show i + 128 - i = 128 from by omega,
            List.range'_append_1,
            show trials - (i + 128) + 128 = trials - i from by omega]
        · rw [min_eq_right (by omega)]
          have hz : trials - (i + 128) = 0 := by omega
          rw [hz]
          simp
      rw [hsplit]
      exact h1.append h2
    · rw [orderedBatchesFrom_eq, if_neg h]
      simp [show trials - i = 0 by omega]

/-- With `stop = false`, a batch whose trials all return an outcome is
harvested in full: one result is recorded per submitted index. -/
theorem harvestBatch_allok {runOne : Nat → Except String (TrialResult α β)} :
    ∀ (idxs : List Nat) (st : AggState α β),
    (∀ j ∈ idxs, ∃ tr, runOne j = .ok tr) →
    ∃ st', harvestBatch runOne false idxs st = .ok st' ∧
      st'.results.length = st.results.length + idxs.length ∧
      st'.submitted = st.submitted := by
  intro idxs
  induction idxs with
  | nil =>
    intro st _
    exact ⟨st, rfl, by simp, rfl⟩
  | cons j rest ih =>
    intro st hok
    obtain ⟨tr, htr⟩ := hok j (List.mem_cons_self _ _)
    have hrest : ∀ j ∈ rest, ∃ tr, runOne j = .ok tr := fun x hx =>
      hok x (List.mem_cons_of_mem _ hx)
    by_cases hp : tr.passed = true
    · obtain ⟨st', h1, h2, h3⟩ :=
        ih { st with results := st.results ++ [tr] } hrest
      dsimp only at h2 h3
      refine ⟨st', ?_, ?_, h3⟩
      · simp only [harvestBatch, htr, hp, if_true]
        exact h1
      · rw [h2]; simp; omega
    · have hp' : tr.passed = false := by simpa using hp
      obtain ⟨st', h1, h2, h3⟩ :=
        ih { st with results := st.results ++ [tr],
                     failures := st.failures + 1,
                     sample_failures :=
                       (if st.sample_failures.length < 5 then
                         st.sample_failures ++ [tr]
                        else st.sample_failures) } hrest
      dsimp only at h2 h3
      refine ⟨st', ?_, ?_, h3⟩
      · simp only [harvestBatch, htr, hp', Bool.false_eq_true, if_false]
        exact h1
      · rw [h2]; simp; omega

/-- With `stop = false`, the whole loop harvests the full batch list. -/
theorem trialLoop_allok {runOne : Nat → Except String (TrialResult α β)}
    (hok : ∀ j, ∃ tr, runOne j = .ok tr) :
    ∀ (bl : List (List Nat)) (st : AggState α β),
    ∃ st', trialLoop runOne false bl st = .ok st' ∧
      st'.results.length = st.results.length + bl.flatten.length := by
  intro bl
  induction bl with
  | nil =>
    intro st
    exact ⟨st, rfl, by simp⟩
  | cons idxs rest ih =>
    intro st
    obtain ⟨st1, h1, h2, h3⟩ :=
      harvestBatch_allok idxs { st with submitted := st.submitted ++ idxs }
        (fun j _ => hok j)
    dsimp only at h2 h3
    obtain ⟨st', g1, g2⟩ := ih st1
    refine ⟨st', ?_, ?_⟩
    · simp only [trialLoop, h1]
      rw [if_neg (by simp)]
      exact g1
    · rw [g2, h2]; simp; omega

/-- A batch whose trials all pass is harvested in full under any stop policy,
without touching the failure counter or the failure samples. -/
theorem harvestBatch_allpass {runOne : Nat → Except String (TrialResult α β)}
    (stop : Bool) :
    ∀ (idxs : List Nat) (st : AggState α β),
    (∀ j ∈ idxs, ∃ tr, runOne j = .ok tr ∧ tr.passed = true) →
    ∃ st', harvestBatch runOne stop idxs st = .ok st' ∧
      st'.results.length = st.results.length + idxs.length ∧
      st'.failures = st.failures ∧
      st'.submitted = st.submitted := by
  intro idxs
  induction idxs with
  | nil =>
    intro st _
    exact ⟨st, rfl, by simp, rfl, rfl⟩
  | cons j rest ih =>
    intro st hok
    obtain ⟨tr, htr, hp⟩ := hok j (List.mem_cons_self _ _)
    obtain ⟨st', h1, h2, h3, h4⟩ :=
      ih { st with results := st.results ++ [tr] }
        (fun x hx => hok x (List.mem_cons_of_mem _ hx))
    dsimp only at h2 h3 h4
    refine ⟨st', ?_, ?_, h3, h4⟩
    · simp only [harvestBatch, htr, hp, if_true]
      exact h1
    · rw [h2]; simp; omega

/-- A batch loop whose trials all pass harvests every batch in full and ends
with zero failures, under any stop policy. -/
theorem trialLoop_allpass {runOne : Nat → Except String (TrialResult α β)}
    (stop : Bool) (hok : ∀ j, ∃ tr, runOne j = .ok tr ∧ tr.passed = true) :
    ∀ (bl : List (List Nat)) (st : AggState α β), st.failures = 0 →
    ∃ st', trialLoop runOne stop bl st = .ok st' ∧
      st'.results.length = st.results.length + bl.flatten.length ∧
      st'.failures = 0 := by
  intro bl
  induction bl with
  | nil =>
    intro st hf
    exact ⟨st, rfl, by simp, hf⟩
  | cons idxs rest ih =>
    intro st hf
    obtain ⟨st1, h1, h2, h3, h4⟩ :=
      harvestBatch_allpass stop idxs
        { st with submitted := st.submitted ++ idxs } (fun j _ => hok j)
    dsimp only at h2 h3 h4
    have hf1 : st1.failures = 0 := by rw [h3, hf]
    obtain ⟨st', g1, g2, g3⟩ := ih st1 hf1
    refine ⟨st', ?_, ?_, g3⟩
    · simp only [trialLoop, h1]
      rw [if_neg (by simp [hf1])]
      exact g1
    · rw [g2, h2]; simp; omega

/-! ### Claim C5 -/

/-- C5: with `stop_on_first_failure = false` and capabilities that never
raise, the evaluation runs the full trial budget: `trials_run = claim.trials`
for every non-negative budget and any batch completion order. -/
theorem stop_false_full_budget (genReg : Registry (GenFn ρ γ α))
    (oracleReg : Registry (OracleFn α β)) (implReg : Registry (ImplFn ρ α β))
    (mkRng : Nat → ρ) (perm : Nat → List Nat → List Nat) (claim : Claim γ)
    (impl_name master_seed : String) (genF : GenFn ρ γ α) (orF : OracleFn α β)
    (implF : ImplFn ρ α β)
    (hperm : ∀ i idxs, (perm i idxs).Perm idxs)
    (hg : genReg claim.adversary = some genF)
    (ho : oracleReg claim.oracle = some orF)
    (hi : implReg impl_name = some implF)
    (hstop : claim.stop_on_first_failure = false)
    (hok : ∀ j, ∃ tr,
      run_one genF implF orF mkRng master_seed claim j = .ok tr) :
    ∃ r, parallel_trials genReg oracleReg implReg mkRng perm claim impl_name
        master_seed = .ok r ∧
      r.trials_run = claim.trials := by
  obtain ⟨st', hloop, hlen⟩ :=
    trialLoop_allok hok (orderedBatchesFrom perm claim.trials 0) initState
  have hflat := orderedBatchesFrom_flatten_perm perm hperm claim.trials
    claim.trials 0 (by omega)
  have hflen : (orderedBatchesFrom perm claim.trials 0).flatten.length =
      claim.trials := by
    rw [hflat.length_eq, List.length_range']
    omega
  simp only [parallel_trials, parallel_trials_state, hg, ho, hi, hstop, hloop]
  refine ⟨_, rfl, ?_⟩
  simp only [hlen, hflen, initState]
  simp

/-- Witness for C5 on concrete registries and a five-trial claim. -/
theorem stop_false_full_budget_witness :
    ∃ r, parallel_trials cexGenNil cexOraclePass cexImplId id (fun _ l => l)
        c5Claim "iname" "ms" = .ok r ∧
      r.trials_run = c5Claim.trials :=
  stop_false_full_budget _ _ _ _ _ _ _ _ _ _ _
    (fun _ l => List.Perm.refl l) rfl rfl rfl rfl (fun j => ⟨_, rfl⟩)

/-! ### Evaluating the seed digest on concrete inputs -/

/-- Unfolding equation for the 64-byte chunking. -/
theorem chunk64_eq (l : List Nat) :
    chunk64 l = if l = [] then [] else l.take 64 :: chunk64 (l.drop 64) := by
  rw [chunk64]
  split <;> rfl

/-- A message padded to exactly one block yields a single chunk. -/
theorem chunk64_single (l : List Nat) (h64 : l.length = 64) : chunk64 l = [l] := by
  rw [chunk64_eq, if_neg (by rintro rfl; simp at h64), chunk64_eq,
    if_pos (List.drop_eq_nil_of_le (by omega)), List.take_of_length_le (by omega)]

/-- On a message whose padding fits in one block, the digest is a single
compression of the initial state. -/
theorem sha256_single (msg : List Nat) (h : (padMessage msg).length = 64) :
    sha256 msg = ((compress shaH0 (padMessage msg)).map (beBytes 4)).flatten := by
  rw [sha256, chunk64_single _ h, List.foldl_cons, List.foldl_nil]

set_option maxRecDepth 4000 in
/-- The derived seeds of trials `1` and `0` of claim `"cid"` under master
seed `"ms"` differ: the single-block digests evaluate to distinct values. -/
theorem seeds_distinct : derive_seed "ms" "cid" 1 ≠ derive_seed "ms" "cid" 0 := by
  simp only [derive_seed]
  rw [sha256_single _ (by decide), sha256_single _ (by decide)]
  decide

/-- If every outcome harvested before trial `j` in the completion order
passes, the harvest loop reaches `j`; a trial exception there, re-raised by
`fut.result()`, aborts the whole loop with the propagated error. -/
theorem harvestBatch_error_reached {runOne : Nat → Except String (TrialResult α β)}
    {stop : Bool} (msg : String) :
    ∀ (pre : List Nat) (j : Nat) (rest : List Nat) (st : AggState α β),
    (∀ k ∈ pre, ∃ tr, runOne k = .ok tr ∧ tr.passed = true) →
    runOne j = .error msg →
    harvestBatch runOne stop (pre ++ j :: rest) st = .error (.trialError msg) := by
  intro pre
  induction pre with
  | nil =>
    intro j rest st _ herr
    simp only [List.nil_append, harvestBatch, herr]
  | cons k tl ih =>
    intro j rest st hpre herr
    obtain ⟨tr, hk, hp⟩ := hpre k (List.mem_cons_self k tl)
    simp only [List.cons_append, harvestBatch, hk, hp, if_true]
    exact ih j rest _ (fun x hx => hpre x (List.mem_cons_of_mem k hx)) herr

/-! ### Claim C2 -/

/-- C2 counterexample: with a generator that raises on every trial, the
evaluation does not absorb the exception into a failing trial outcome; it
aborts with the propagated error and returns no `ClaimResult` at all. -/
theorem trial_exception_cex :
    parallel_trials cexGenErr cexOraclePass cexImplId id (fun _ l => l)
      demoClaim "iname" "ms" = .error (.trialError "boom") := by
  have hb : orderedBatchesFrom (fun _ l => l) 3 0 = [[0, 1, 2]] := by
    rw [orderedBatchesFrom_eq, if_pos (by norm_num), orderedBatchesFrom_eq,
      if_neg (by norm_num)]
    norm_num [batchIdxs]
    decide
  simp [parallel_trials, parallel_trials_state, cexGenErr, cexOraclePass,
    cexImplId, demoClaim, hb, trialLoop, harvestBatch, run_one]

/-- C2 (amended): a trial in which the generator, the implementation or the
oracle raises — possibly on that single trial only, `run_one` returning the
propagated error at its index — is never recorded as a failing trial outcome:
(i) on a successful evaluation the raising trial is observed in neither
`trials_run` nor `failures`; (ii) if the harvest loop reaches the raising
future (every outcome harvested before it in its batch passing), the
exception re-raised by `fut.result()` aborts the whole evaluation with the
propagated error and no partial `ClaimResult`; but (iii) the exception is not
always surfaced: under `stop_on_first_failure`, a raising future left
unharvested by the early-stop break is silently dropped, and
`parallel_trials` returns a normal `ClaimResult` — concretely, trial `1` of
`c1Claim` raises in the implementation, yet the break after the failing
outcome of trial `0` yields a `ClaimResult` with one observed trial and one
failure. -/
theorem trial_exception_semantics :
    (∀ (γ ρ α β : Type) (genReg : Registry (GenFn ρ γ α))
      (oracleReg : Registry (OracleFn α β)) (implReg : Registry (ImplFn ρ α β))
      (mkRng : Nat → ρ) (perm : Nat → List Nat → List Nat) (claim : Claim γ)
      (impl_name master_seed : String) (genF : GenFn ρ γ α)
      (orF : OracleFn α β) (implF : ImplFn ρ α β) (r : ClaimResult γ α β)
      (j : Nat) (msg : String),
      genReg claim.adversary = some genF →
      oracleReg claim.oracle = some orF →
      implReg impl_name = some implF →
      run_one genF implF orF mkRng master_seed claim j = .error msg →
      parallel_trials genReg oracleReg implReg mkRng perm claim impl_name
        master_seed = .ok r →
      ∃ obs : List (TrialResult α β),
        r.trials_run = obs.length ∧ r.failures = countFails obs ∧
        j ∉ obs.map TrialResult.idx) ∧
    (∀ (γ ρ α β : Type) (genReg : Registry (GenFn ρ γ α))
      (oracleReg : Registry (OracleFn α β)) (implReg : Registry (ImplFn ρ α β))
      (mkRng : Nat → ρ) (perm : Nat → List Nat → List Nat) (claim : Claim γ)
      (impl_name master_seed : String) (genF : GenFn ρ γ α)
      (orF : OracleFn α β) (implF : ImplFn ρ α β)
      (pre : List Nat) (j : Nat) (rest : List Nat) (msg : String),
      (∀ i idxs, (perm i idxs).Perm idxs) →
      genReg claim.adversary = some genF →
      oracleReg claim.oracle = some orF →
      implReg impl_name = some implF →
      perm 0 (batchIdxs claim.trials 0) = pre ++ j :: rest →
      (∀ k ∈ pre, ∃ tr, run_one genF implF orF mkRng master_seed claim k =
        .ok tr ∧ tr.passed = true) →
      run_one genF implF orF mkRng master_seed claim j = .error msg →
      parallel_trials genReg oracleReg implReg mkRng perm claim impl_name
        master_seed = .error (.trialError msg)) ∧
    (run_one c2gen c2impl c2oracle id "ms" c1Claim 1 = .error "boom" ∧
      parallel_trials c2GenReg c2OracleReg c2ImplReg id (fun _ l => l) c1Claim
        "iname" "ms" =
        .ok ⟨c1Claim, 1, 1, [c2tr], none,
          rng_commit_hash "ms" "cid" "iname", 0⟩) := by
  refine ⟨?_, ?_, ?_, ?_⟩
  · intro γ ρ α β genReg oracleReg implReg mkRng perm claim impl_name
      master_seed genF orF implF r j msg hg ho hi herr hres
    simp only [parallel_trials, parallel_trials_state, hg, ho, hi] at hres
    cases hst : trialLoop (run_one genF implF orF mkRng master_seed claim)
        claim.stop_on_first_failure (orderedBatchesFrom perm claim.trials 0)
        initState with
    | error e => rw [hst] at hres; cases hres
    | ok st =>
      rw [hst] at hres
      obtain ⟨new, h1, h2, _, h4⟩ :=
        trialLoop_ok (run_one_idx genF implF orF mkRng master_seed claim) _ _ _
          hst
      simp only [initState, List.nil_append] at h1 h2
      cases hres
      refine ⟨st.results, rfl, ?_, ?_⟩
      · rw [h2, h1, countFails]
        simp [countFails]
      · intro hmem
        rw [h1, List.mem_map] at hmem
        obtain ⟨tr, htr, hidx⟩ := hmem
        have hok := h4 tr htr
        rw [hidx, herr] at hok
        cases hok
  · intro γ ρ α β genReg oracleReg implReg mkRng perm claim impl_name
      master_seed genF orF implF pre j rest msg hperm hg ho hi hfirst hpre herr
    have htr : 0 < claim.trials := by
      have hL := (hperm 0 (batchIdxs claim.trials 0)).length_eq
      rw [hfirst] at hL
      simp only [List.length_append, List.length_cons, batchIdxs,
        List.length_range'] at hL
      omega
    simp only [parallel_trials, parallel_trials_state, hg, ho, hi]
    rw [orderedBatchesFrom_eq, if_pos htr, hfirst]
    simp only [trialLoop]
    rw [harvestBatch_error_reached msg pre j rest _ hpre herr]
  · simp only [run_one, c2gen, c2impl, c1Claim, id_eq]
    rw [if_neg seeds_distinct]
  · have hb : orderedBatchesFrom (fun _ l => l) 2 0 = [[0, 1]] := by
      rw [orderedBatchesFrom_eq, if_pos (by norm_num), orderedBatchesFrom_eq,
        if_neg (by norm_num)]
      norm_num [batchIdxs]
      decide
    simp [parallel_trials, parallel_trials_state, c2GenReg, c2OracleReg,
      c2ImplReg, c2gen, c2impl, c2oracle, c1Claim, c2tr, hb, trialLoop,
      harvestBatch, run_one, initState, rule_of_three_upper_bound]

/-- Witness for the amended C2: the abort conjunct applied at concrete
registries, with a generator raising on the first harvested trial. -/
theorem trial_exception_semantics_witness :
    parallel_trials cexGenErr cexOraclePass cexImplId id (fun _ l => l)
      demoClaim "iname" "ms" = .error (.trialError "boom") :=
  trial_exception_semantics.2.1 Unit Nat (List Int) (List Int) cexGenErr
    cexOraclePass cexImplId id (fun _ l => l) demoClaim "iname" "ms" _ _ _
    [] 0 [1, 2] "boom" (fun _ l => List.Perm.refl l) rfl rfl rfl rfl
    (fun k hk => absurd hk (List.not_mem_nil k)) rfl

/-! ### Claim C1 -/

/-- C1 counterexample: two trials, both failing, `stop_on_first_failure =
true`, completion order `[0, 1]`.  Both trials are submitted to the executor
(`submitted = [0, 1]`) and both run to completion (futures are never
cancelled; the executor is shut down with `wait = True`), yet the aggregation
loop breaks after observing the first failure: `trials_run = 1`, so
`trials_run` is not the number of trial outcomes that ran to completion, and
the completed outcome of trial `1` is dropped along with its failure. -/
theorem dropped_completed_outcome_cex :
    parallel_trials_state cexGenNil cexOracleFail cexImplId id (fun _ l => l)
        c1Claim "iname" "ms" = .ok ⟨[c1tr], 1, [c1tr], [0, 1]⟩ ∧
    Except.map (fun r : ClaimResult Unit (List Int) (List Int) => r.trials_run)
        (parallel_trials cexGenNil cexOracleFail cexImplId id (fun _ l => l)
          c1Claim "iname" "ms") = .ok 1 := by
  have hb : orderedBatchesFrom (fun _ l => l) 2 0 = [[0, 1]] := by
    rw [orderedBatchesFrom_eq, if_pos (by norm_num), orderedBatchesFrom_eq,
      if_neg (by norm_num)]
    norm_num [batchIdxs]
    decide
  constructor <;>
    simp [parallel_trials, parallel_trials_state, cexGenNil, cexOracleFail,
      cexImplId, c1Claim, c1tr, hb, trialLoop, harvestBatch, run_one,
      initState, Except.map]

/-- C1 (amended): exact accounting holds for the outcomes the aggregation
loop observes: on a successful evaluation there is a duplicate-free set of
observed trials, with `trials_run` exactly its size and `failures` exactly
the number of failing outcomes among them, every observed outcome being the
genuine outcome of its trial index; completed outcomes that the early-stop
break discards before observing them are not counted. -/
theorem observed_accounting_exact (genReg : Registry (GenFn ρ γ α))
    (oracleReg : Registry (OracleFn α β)) (implReg : Registry (ImplFn ρ α β))
    (mkRng : Nat → ρ) (perm : Nat → List Nat → List Nat) (claim : Claim γ)
    (impl_name master_seed : String) (genF : GenFn ρ γ α) (orF : OracleFn α β)
    (implF : ImplFn ρ α β) (r : ClaimResult γ α β)
    (hperm : ∀ i idxs, (perm i idxs).Perm idxs)
    (hg : genReg claim.adversary = some genF)
    (ho : oracleReg claim.oracle = some orF)
    (hi : implReg impl_name = some implF)
    (hres : parallel_trials genReg oracleReg implReg mkRng perm claim
      impl_name master_seed = .ok r) :
    ∃ obs : List (TrialResult α β),
      r.trials_run = obs.length ∧
      r.failures = countFails obs ∧
      (obs.map TrialResult.idx).Nodup ∧
      ∀ tr ∈ obs, tr.idx < claim.trials ∧
        run_one genF implF orF mkRng master_seed claim tr.idx = .ok tr := by
  simp only [parallel_trials, parallel_trials_state, hg, ho, hi] at hres
  cases hst : trialLoop (run_one genF implF orF mkRng master_seed claim)
      claim.stop_on_first_failure (orderedBatchesFrom perm claim.trials 0)
      initState with
  | error e => rw [hst] at hres; cases hres
  | ok st =>
    rw [hst] at hres
    obtain ⟨new, h1, h2, h3, h4⟩ :=
      trialLoop_ok (run_one_idx genF implF orF mkRng master_seed claim) _ _ _
        hst
    simp only [initState, List.nil_append] at h1 h2
    have hflat := orderedBatchesFrom_flatten_perm perm hperm claim.trials
      claim.trials 0 (by omega)
    cases hres
    refine ⟨st.results, rfl, ?_, ?_, ?_⟩
    · rw [h2, h1, countFails]
      simp [countFails]
    · rw [h1]
      exact h3.nodup (hflat.nodup_iff.mpr (List.nodup_range' _ _))
    · intro tr htr
      rw [h1] at htr
      constructor
      · have hmem : tr.idx ∈ (orderedBatchesFrom perm claim.trials 0).flatten :=
          h3.subset (List.mem_map_of_mem TrialResult.idx htr)
        have := hflat.subset hmem
        rw [List.mem_range'_1] at this
        omega
      · exact h4 tr htr

/-- Witness for the amended C1 on a concrete three-trial evaluation. -/
theorem observed_accounting_exact_witness :
    ∃ obs : List (TrialResult (List Int) (List Int)),
      c1WitnessResult.trials_run = obs.length ∧
      c1WitnessResult.failures = countFails obs ∧
      (obs.map TrialResult.idx).Nodup ∧
      ∀ tr ∈ obs, tr.idx < demoClaim.trials ∧
        run_one (fun rng _ => .ok ([], rng)) (fun a r => .ok (a, r))
          (fun _ _ => .ok (true, [])) id "ms" demoClaim tr.idx = .ok tr :=
  observed_accounting_exact cexGenNil cexOraclePass cexImplId id
    (fun _ l => l) demoClaim "iname" "ms" _ _ _ c1WitnessResult
    (fun _ l => List.Perm.refl l) rfl rfl rfl
    (by
      have hb : orderedBatchesFrom (fun _ l => l) 3 0 = [[0, 1, 2]] := by
        rw [orderedBatchesFrom_eq, if_pos (by norm_num), orderedBatchesFrom_eq,
          if_neg (by norm_num)]
        norm_num [batchIdxs]
        decide
      simp [parallel_trials, parallel_trials_state, cexGenNil, cexOraclePass,
        cexImplId, demoClaim, c1WitnessResult, hb, trialLoop, harvestBatch,
        run_one, initState])

/-! ### Correctness of `quicksort3way` (claim C8) -/

/-- Unfolding equation for `quicksort3way`. -/
theorem quicksort3way_eq (a : List Int) :
    quicksort3way a =
      if h : a.length ≤ 1 then a
      else
        have hmid : a.length / 2 < a.length :=
          Nat.div_lt_self (by omega) (by decide)
        let pivot := a.get ⟨a.length / 2, hmid⟩
        quicksort3way (a.filter fun x => decide (x < pivot)) ++
          (a.filter fun x => decide (x = pivot)) ++
          quicksort3way (a.filter fun x => decide (pivot < x)) := by
  rw [quicksort3way]

/-- Partitioning by strictly-below, equal and strictly-above is a permutation
of the original list. -/
theorem three_filter_perm (pivot : Int) : ∀ a : List Int,
    List.Perm ((a.filter fun x => decide (x < pivot)) ++
      (a.filter fun x => decide (x = pivot)) ++
      (a.filter fun x => decide (pivot < x))) a := by
  intro a
  induction a with
  | nil => simp
  | cons y t ih =>
    rcases lt_trichotomy y pivot with hy | hy | hy
    · have h1 : decide (y < pivot) = true := decide_eq_true hy
      have h2 : decide (y = pivot) = false := decide_eq_false (ne_of_lt hy)
      have h3 : decide (pivot < y) = false := decide_eq_false (lt_asymm hy)
      simp only [List.filter_cons, h1, h2, h3, if_true, Bool.false_eq_true,
        if_false, List.cons_append]
      exact ih.cons y
    · have h1 : decide (y < pivot) = false := decide_eq_false (by omega)
      have h2 : decide (y = pivot) = true := decide_eq_true hy
      have h3 : decide (pivot < y) = false := decide_eq_false (by omega)
      simp only [List.filter_cons, h1, h2, h3, if_true, Bool.false_eq_true,
        if_false, List.append_assoc, List.cons_append]
      refine List.Perm.trans List.perm_middle ?_
      refine List.Perm.cons y ?_
      rw [← List.append_assoc]
      exact ih
    · have h1 : decide (y < pivot) = false := decide_eq_false (lt_asymm hy)
      have h2 : decide (y = pivot) = false := decide_eq_false (by omega)
      have h3 : decide (pivot < y) = true := decide_eq_true hy
      simp only [List.filter_cons, h1, h2, h3, if_true, Bool.false_eq_true,
        if_false, List.append_assoc, List.cons_append]
      rw [← List.append_assoc]
      refine List.Perm.trans List.perm_middle ?_
      refine List.Perm.cons y ?_
      exact ih

/-- `quicksort3way` returns a permutation of its input. -/
theorem quicksort3way_perm (a : List Int) : (quicksort3way a).Perm a := by
  suffices H : ∀ (n : Nat) (a : List Int), a.length ≤ n →
      (quicksort3way a).Perm a from H a.length a le_rfl
  intro n
  induction n with
  | zero =>
    intro a ha
    have : a = [] := List.length_eq_zero.mp (by omega)
    subst this
    rw [quicksort3way_eq]
    simp
  | succ n ih =>
    intro a ha
    rw [quicksort3way_eq]
    split
    · exact List.Perm.refl a
    · rename_i h
      dsimp only
      set pivot := a.get ⟨a.length / 2, Nat.div_lt_self (by omega) (by decide)⟩
        with hpivot
      have hmem : pivot ∈ a := a.get_mem _ _
      have hlt : ∀ p : Int → Bool, ¬ p pivot = true →
          (a.filter p).length ≤ n := by
        intro p hp
        have := List.length_filter_lt_length_iff_exists.mpr ⟨pivot, hmem, hp⟩
        omega
      have h1 := ih _ (hlt (fun x => decide (x < pivot)) (by simp))
      have h3 := ih _ (hlt (fun x => decide (pivot < x)) (by simp))
      exact ((h1.append (List.Perm.refl _)).append h3).trans
        (three_filter_perm pivot a)

/-- A list whose elements are all equal is sorted. -/
theorem pairwise_le_of_all_eq (c : Int) : ∀ l : List Int,
    (∀ x ∈ l, x = c) → l.Pairwise (· ≤ ·) := by
  intro l
  induction l with
  | nil => intro _; exact List.Pairwise.nil
  | cons y t ih =>
    intro h
    refine List.Pairwise.cons ?_ (ih fun x hx => h x (List.mem_cons_of_mem _ hx))
    intro z hz
    rw [h y (List.mem_cons_self _ _), h z (List.mem_cons_of_mem _ hz)]

/-- `quicksort3way` returns a sorted list. -/
theorem quicksort3way_sorted (a : List Int) :
    (quicksort3way a).Pairwise (· ≤ ·) := by
  suffices H : ∀ (n : Nat) (a : List Int), a.length ≤ n →
      (quicksort3way a).Pairwise (· ≤ ·) from H a.length a le_rfl
  intro n
  induction n with
  | zero =>
    intro a ha
    have : a = [] := List.length_eq_zero.mp (by omega)
    subst this
    rw [quicksort3way_eq]
    simp
  | succ n ih =>
    intro a ha
    rw [quicksort3way_eq]
    split
    · rename_i h
      rcases a with _ | ⟨x, _ | ⟨y, t⟩⟩
      · exact List.Pairwise.nil
      · simp
      · simp at h
    · rename_i h
      dsimp only
      set pivot := a.get ⟨a.length / 2, Nat.div_lt_self (by omega) (by decide)⟩
        with hpivot
      have hmem : pivot ∈ a := a.get_mem _ _
      have hlt : ∀ p : Int → Bool, ¬ p pivot = true →
          (a.filter p).length ≤ n := by
        intro p hp
        have := List.length_filter_lt_length_iff_exists.mpr ⟨pivot, hmem, hp⟩
        omega
      have hmem1 : ∀ x ∈ quicksort3way (a.filter fun z => decide (z < pivot)),
          x < pivot := by
        intro x hx
        have := (quicksort3way_perm _).subset hx
        exact of_decide_eq_true (List.mem_filter.mp this).2
      have hmem2 : ∀ x ∈ a.filter fun z => decide (z = pivot), x = pivot := by
        intro x hx
        exact of_decide_eq_true (List.mem_filter.mp hx).2
      have hmem3 : ∀ x ∈ quicksort3way (a.filter fun z => decide (pivot < z)),
          pivot < x := by
        intro x hx
        have := (quicksort3way_perm _).subset hx
        exact of_decide_eq_true (List.mem_filter.mp this).2
      rw [List.pairwise_append]
      refine ⟨?_, ih _ (hlt _ (by simp)), ?_⟩
      · rw [List.pairwise_append]
        refine ⟨ih _ (hlt _ (by simp)), pairwise_le_of_all_eq pivot _ hmem2, ?_⟩
        intro x hx y hy
        rw [hmem2 y hy]
        exact le_of_lt (hmem1 x hx)
      · intro x hx y hy
        rcases List.mem_append.mp hx with hx | hx
        · exact le_of_lt ((hmem1 x hx).trans (hmem3 y hy))
        · rw [hmem2 x hx]
          exact le_of_lt (hmem3 y hy)

/-- A pairwise-sorted list satisfies the `is_sorted` check. -/
theorem is_sorted_eq_true_of_pairwise (l : List Int)
    (h : l.Pairwise (· ≤ ·)) : is_sorted l = true := by
  rw [is_sorted, List.all_eq_true]
  intro i hi
  rw [List.mem_range] at hi
  have h1 : i < l.length := by omega
  have h2 : i + 1 < l.length := by omega
  rw [List.getD_eq_getElem l 0 h1, List.getD_eq_getElem l 0 h2,
    decide_eq_true_eq]
  have := List.pairwise_iff_get.mp h ⟨i, h1⟩ ⟨i + 1, h2⟩ (by simp)
  simpa using this

/-- Listwise permutation implies the `Counter`-equality check. -/
theorem is_permutation_eq_true_of_perm {a b : List Int} (h : a.Perm b) :
    is_permutation a b = true := by
  rw [is_permutation, decide_eq_true_eq]
  exact Multiset.coe_eq_coe.mpr h

/-- The `"sort_correctness"` oracle passes every pair produced by
`quicksort3way`. -/
theorem sort_correctness_oracle_quicksort (inp : List Int) :
    sort_correctness_oracle inp (quicksort3way inp) = .ok (true, []) := by
  have hs := is_sorted_eq_true_of_pairwise _ (quicksort3way_sorted inp)
  have hp := is_permutation_eq_true_of_perm (quicksort3way_perm inp).symm
  simp [sort_correctness_oracle, hs, hp]

/-! ### Claim C8 -/

/-- C8: `quicksort3way` returns a sorted permutation of every input, the
`"sort_correctness"` oracle passes on every input/output pair it produces,
and consequently evaluating a sorting claim against `"quicksort3"` with any
non-raising generator reports `failures = 0`, a full `trials_run`, and
`upper95_failure_prob = 3 / trials_run`. -/
theorem quicksort_claim_valid (genReg : Registry (GenFn ρ γ (List Int)))
    (oracleReg : Registry (OracleFn (List Int) (List Int)))
    (implReg : Registry (ImplFn ρ (List Int) (List Int)))
    (mkRng : Nat → ρ) (perm : Nat → List Nat → List Nat) (claim : Claim γ)
    (impl_name master_seed : String) (genF : GenFn ρ γ (List Int))
    (hperm : ∀ i idxs, (perm i idxs).Perm idxs)
    (hg : genReg claim.adversary = some genF)
    (ho : oracleReg claim.oracle = some sort_correctness_oracle)
    (hi : implReg impl_name = some (quicksort3_impl : ImplFn ρ (List Int) (List Int)))
    (hgen : ∀ rng p, ∃ x, genF rng p = .ok x)
    (htr : 0 < claim.trials) :
    (∀ a : List Int, is_sorted (quicksort3way a) = true ∧
      is_permutation a (quicksort3way a) = true) ∧
    ∃ r, parallel_trials genReg oracleReg implReg mkRng perm claim impl_name
        master_seed = .ok r ∧
      r.failures = 0 ∧ r.trials_run = claim.trials ∧
      r.upper95_failure_prob = some (3 / (claim.trials : ℚ)) := by
  constructor
  · intro a
    exact ⟨is_sorted_eq_true_of_pairwise _ (quicksort3way_sorted a),
      is_permutation_eq_true_of_perm (quicksort3way_perm a).symm⟩
  · have hok : ∀ j, ∃ tr,
        run_one genF quicksort3_impl sort_correctness_oracle mkRng master_seed
          claim j = .ok tr ∧ tr.passed = true := by
      intro j
      obtain ⟨⟨inp, rng1⟩, hgen1⟩ :=
        hgen (mkRng (derive_seed master_seed claim.id j)) claim.domain.params
      refine ⟨⟨j, inp, quicksort3way inp, true, []⟩, ?_, rfl⟩
      simp only [run_one, hgen1, quicksort3_impl,
        sort_correctness_oracle_quicksort]
    obtain ⟨st', hloop, hlen, hfail⟩ :=
      trialLoop_allpass claim.stop_on_first_failure hok
        (orderedBatchesFrom perm claim.trials 0) initState rfl
    have hflat := orderedBatchesFrom_flatten_perm perm hperm claim.trials
      claim.trials 0 (by omega)
    have hflen : (orderedBatchesFrom perm claim.trials 0).flatten.length =
        claim.trials := by
      rw [hflat.length_eq, List.length_range']
      omega
    have hntr : st'.results.length = claim.trials := by
      rw [hlen, hflen]
      simp [initState]
    simp only [parallel_trials, parallel_trials_state, hg, ho, hi, hloop]
    refine ⟨_, rfl, hfail, hntr, ?_⟩
    rw [hfail, hntr, rule_of_three_upper_bound, if_pos ⟨rfl, htr⟩]

/-- Witness for C8 on a concrete four-trial claim and generator. -/
theorem quicksort_claim_valid_witness :
    (is_sorted (quicksort3way [3, 1, 2, 1]) = true ∧
      is_permutation [3, 1, 2, 1] (quicksort3way [3, 1, 2, 1]) = true) ∧
    ∃ r, parallel_trials qsGenReg qsOracleReg qsImplReg id (fun _ l => l)
        qsClaim "quicksort3" "ms" = .ok r ∧
      r.failures = 0 ∧ r.trials_run = qsClaim.trials ∧
      r.upper95_failure_prob = some (3 / (qsClaim.trials : ℚ)) :=
  have T := quicksort_claim_valid qsGenReg qsOracleReg qsImplReg id
    (fun _ l => l) qsClaim "quicksort3" "ms" _
    (fun _ l => List.Perm.refl l) rfl rfl rfl
    (fun rng p => ⟨([3, 1, 2, 1], rng), rfl⟩) (by norm_num [qsClaim])
  ⟨T.1 [3, 1, 2, 1], T.2⟩

/-! ### Key-order lemmas for the canonical JSON serialization (claim C6) -/

/-- The lexicographic key order is total. -/
theorem charsLe_total : ∀ xs ys : List Char,
    charsLe xs ys = true ∨ charsLe ys xs = true := by
  intro xs
  induction xs with
  | nil => intro ys; left; rfl
  | cons x xs ih =>
    intro ys
    cases ys with
    | nil => right; rfl
    | cons y ys =>
      rcases lt_trichotomy x y with h | h | h
      · left; simp [charsLe, h]
      · subst h
        rcases ih ys with hc | hc
        · left; simp [charsLe, hc]
        · right; simp [charsLe, hc]
      · right; simp [charsLe, h]

/-- The lexicographic key order is transitive. -/
theorem charsLe_trans : ∀ xs ys zs : List Char, charsLe xs ys = true →
    charsLe ys zs = true → charsLe xs zs = true := by
  intro xs
  induction xs with
  | nil => intro ys zs _ _; rfl
  | cons x xs ih =>
    intro ys zs h1 h2
    cases ys with
    | nil => simp [charsLe] at h1
    | cons y ys =>
      cases zs with
      | nil => simp [charsLe] at h2
      | cons z zs =>
        simp only [charsLe] at h1 h2 ⊢
        by_cases hxy : x < y
        · rcases lt_trichotomy y z with hyz | hyz | hyz
          · rw [if_pos (hxy.trans hyz)]
          · subst hyz
            rw [if_pos hxy]
          · rw [if_neg (lt_asymm hyz), if_neg (ne_of_gt hyz)] at h2
            cases h2
        · by_cases hxy2 : x = y
          · subst hxy2
            by_cases hxz : x < z
            · rw [if_pos hxz]
            · rw [if_neg hxz] at h2 ⊢
              by_cases hxz2 : x = z
              · rw [if_pos hxz2] at h2 ⊢
                rw [if_neg hxy, if_pos rfl] at h1
                exact ih ys zs h1 h2
              · rw [if_neg hxz2] at h2
                cases h2
          · rw [if_neg hxy, if_neg hxy2] at h1
            cases h1

/-- The lexicographic key order is antisymmetric. -/
theorem charsLe_antisymm : ∀ xs ys : List Char, charsLe xs ys = true →
    charsLe ys xs = true → xs = ys := by
  intro xs
  induction xs with
  | nil =>
    intro ys h1 h2
    cases ys with
    | nil => rfl
    | cons y ys => simp [charsLe] at h2
  | cons x xs ih =>
    intro ys h1 h2
    cases ys with
    | nil => simp [charsLe] at h1
    | cons y ys =>
      simp only [charsLe] at h1 h2
      rcases lt_trichotomy x y with h | h | h
      · rw [if_neg (lt_asymm h), if_neg (ne_of_gt h)] at h2
        cases h2
      · subst h
        rw [if_neg (lt_irrefl x), if_pos rfl] at h1 h2
        rw [ih ys h1 h2]
      · rw [if_neg (lt_asymm h), if_neg (ne_of_gt h)] at h1
        cases h1

/-- Key comparison is total. -/
theorem keyLe_total (a b : String) : keyLe a b = true ∨ keyLe b a = true :=
  charsLe_total a.data b.data

/-- Key comparison is transitive. -/
theorem keyLe_trans {a b c : String} (h1 : keyLe a b = true)
    (h2 : keyLe b c = true) : keyLe a c = true :=
  charsLe_trans a.data b.data c.data h1 h2

/-- Key comparison is antisymmetric. -/
theorem keyLe_antisymm {a b : String} (h1 : keyLe a b = true)
    (h2 : keyLe b a = true) : a = b := by
  cases a with
  | mk da =>
    cases b with
    | mk db =>
      rw [charsLe_antisymm da db h1 h2]

instance : IsTotal (String × Json) fieldRel :=
  ⟨fun p q => keyLe_total p.1 q.1⟩

instance : IsTrans (String × Json) fieldRel :=
  ⟨fun _ _ _ => keyLe_trans⟩

/-- The sorted fields are a permutation of the original fields. -/
theorem sortByKey_perm (l : List (String × Json)) : (sortByKey l).Perm l :=
  List.perm_insertionSort fieldRel l

/-- The sorted fields are sorted for the key order. -/
theorem sortByKey_sorted (l : List (String × Json)) :
    List.Sorted fieldRel (sortByKey l) :=
  List.sorted_insertionSort fieldRel l

/-- Sorting is invariant under permuting fields, as long as the keys are
duplicate-free (as they are for fields coming from a Python dict). -/
theorem sortByKey_congr_perm {l₁ l₂ : List (String × Json)}
    (hp : l₁.Perm l₂) (hnd : (l₁.map Prod.fst).Nodup) :
    sortByKey l₁ = sortByKey l₂ := by
  have hperm : (sortByKey l₁).Perm (sortByKey l₂) :=
    ((sortByKey_perm l₁).trans hp).trans (sortByKey_perm l₂).symm
  have hnd₁ : ((sortByKey l₁).map Prod.fst).Nodup :=
    (((sortByKey_perm l₁).map Prod.fst).nodup_iff).mpr hnd
  have hnd₂ : ((sortByKey l₂).map Prod.fst).Nodup :=
    ((hperm.map Prod.fst).nodup_iff).mp hnd₁
  have hstrict : ∀ l : List (String × Json), List.Sorted fieldRel l →
      (l.map Prod.fst).Nodup →
      List.Pairwise (fun p q : String × Json => fieldRel p q ∧ p.1 ≠ q.1) l := by
    intro l hs hn
    rw [List.Nodup, List.pairwise_map] at hn
    exact hs.and hn
  haveI : IsAntisymm (String × Json)
      (fun p q : String × Json => fieldRel p q ∧ p.1 ≠ q.1) :=
    ⟨fun p q h1 h2 => absurd (keyLe_antisymm h1.1 h2.1) h1.2⟩
  exact List.eq_of_perm_of_sorted hperm
    (hstrict _ (sortByKey_sorted l₁) hnd₁)
    (hstrict _ (sortByKey_sorted l₂) hnd₂)

/-- Unfolding equation: leaves are fixed by `Json.canon`. -/
theorem canon_str (s : String) : Json.canon (.str s) = .str s := by
  simp only [Json.canon]

/-- Unfolding equation for integer leaves. -/
theorem canon_int (n : ℤ) : Json.canon (.int n) = .int n := by
  simp only [Json.canon]

/-- Unfolding equation for number leaves. -/
theorem canon_num (q : ℚ) : Json.canon (.num q) = .num q := by
  simp only [Json.canon]

/-- Unfolding equation for boolean leaves. -/
theorem canon_bool (b : Bool) : Json.canon (.bool b) = .bool b := by
  simp only [Json.canon]

/-- Unfolding equation for the null leaf. -/
theorem canon_null : Json.canon .null = .null := by
  simp only [Json.canon]

/-- Unfolding equation for arrays. -/
theorem canon_arr (xs : List Json) :
    Json.canon (.arr xs) = .arr (xs.map Json.canon) := by
  simp only [Json.canon]
  rw [List.attach_map_coe xs Json.canon]

/-- Unfolding equation for objects. -/
theorem canon_obj (fs : List (String × Json)) :
    Json.canon (.obj fs) =
      .obj (sortByKey (fs.map fun p => (p.1, Json.canon p.2))) := by
  simp only [Json.canon]
  rw [List.attach_map_coe fs (fun p => (p.1, Json.canon p.2))]

/-- Unfolding equation for serializing arrays. -/
theorem jsonDumps_arr (xs : List Json) :
    jsonDumps (.arr xs) =
      "[" ++ String.intercalate "," (xs.map jsonDumps) ++ "]" := by
  simp only [jsonDumps]
  rw [List.attach_map_coe xs jsonDumps]

/-- Unfolding equation for serializing objects: fields come out in sorted key
order. -/
theorem jsonDumps_obj (fs : List (String × Json)) :
    jsonDumps (.obj fs) =
      "\x7b" ++ String.intercalate ","
        ((sortByKey fs).map fun p => jsonStringLit p.1 ++ ":" ++ jsonDumps p.2)
        ++ "\x7d" := by
  simp only [jsonDumps]
  rw [List.attach_map_coe (sortByKey fs)
    (fun p => jsonStringLit p.1 ++ ":" ++ jsonDumps p.2)]

/-- Inserting into a value-mapped field list is the value-mapped insertion:
the order is decided by keys alone. -/
theorem orderedInsert_map_snd (f : Json → Json) (p : String × Json) :
    ∀ l : List (String × Json),
    List.orderedInsert fieldRel (p.1, f p.2) (l.map fun q => (q.1, f q.2)) =
      (List.orderedInsert fieldRel p l).map fun q => (q.1, f q.2) := by
  intro l
  induction l with
  | nil => rfl
  | cons q t ih =>
    simp only [List.map_cons, List.orderedInsert]
    have hc : fieldRel (p.1, f p.2) (q.1, f q.2) = fieldRel p q := rfl
    simp only [hc]
    by_cases h : fieldRel p q
    · rw [if_pos h, if_pos h]
      simp
    · rw [if_neg h, if_neg h]
      simp only [List.map_cons, List.cons.injEq, true_and]
      exact ih

/-- Sorting commutes with mapping over values. -/
theorem sortByKey_map_snd (f : Json → Json) : ∀ l : List (String × Json),
    sortByKey (l.map fun q => (q.1, f q.2)) =
      (sortByKey l).map fun q => (q.1, f q.2) := by
  intro l
  induction l with
  | nil => rfl
  | cons q t ih =>
    simp only [sortByKey, List.insertionSort, List.map_cons] at ih ⊢
    rw [ih]
    exact orderedInsert_map_snd f q (List.insertionSort fieldRel t)

/-- Sorting the fields twice is the same as sorting once. -/
theorem sortByKey_idem (l : List (String × Json)) :
    sortByKey (sortByKey l) = sortByKey l :=
  List.Sorted.insertionSort_eq (sortByKey_sorted l)

/-- Serializing a canonicalized value gives the same canonical text: the
serializer already sorts every object's fields. -/
theorem jsonDumps_canon : ∀ (n : Nat) (j : Json), sizeOf j ≤ n →
    jsonDumps (Json.canon j) = jsonDumps j := by
  intro n
  induction n with
  | zero =>
    intro j h
    cases j <;> simp_arith at h
  | succ n ihn =>
    intro j hsz
    cases j with
    | str s => rw [canon_str]
    | int m => rw [canon_int]
    | num q => rw [canon_num]
    | bool b => rw [canon_bool]
    | null => rw [canon_null]
    | arr xs =>
      rw [canon_arr, jsonDumps_arr, jsonDumps_arr, List.map_map]
      have hsx : sizeOf (Json.arr xs) = 1 + sizeOf xs := by simp
      have hmap : List.map (jsonDumps ∘ Json.canon) xs =
          List.map jsonDumps xs := by
        apply List.map_congr_left
        intro x hx
        have h1 := List.sizeOf_lt_of_mem hx
        simp only [Function.comp_apply]
        exact ihn x (by omega)
      rw [hmap]
    | obj fs =>
      rw [canon_obj, jsonDumps_obj, jsonDumps_obj, sortByKey_idem,
        sortByKey_map_snd, List.map_map]
      have hsx : sizeOf (Json.obj fs) = 1 + sizeOf fs := by simp
      have hmap : List.map ((fun p : String × Json =>
          jsonStringLit p.1 ++ ":" ++ jsonDumps p.2) ∘
            (fun q : String × Json => (q.1, Json.canon q.2))) (sortByKey fs) =
          List.map (fun p : String × Json =>
            jsonStringLit p.1 ++ ":" ++ jsonDumps p.2) (sortByKey fs) := by
        apply List.map_congr_left
        intro p hp
        have hmem : p ∈ fs := (sortByKey_perm fs).subset hp
        have h1 := List.sizeOf_lt_of_mem hmem
        have h2 : sizeOf p.2 < sizeOf p := by
          obtain ⟨k, v⟩ := p
          simp
        simp only [Function.comp_apply]
        rw [ihn p.2 (by omega)]
      rw [hmap]

/-- A compression step returns an eight-word state. -/
theorem compress_length (hs block : List Nat) : (compress hs block).length = 8 := by
  simp [compress]

/-- Folding compression over any block list preserves the eight-word state. -/
theorem foldl_compress_length : ∀ (blocks : List (List Nat)) (hs : List Nat),
    hs.length = 8 → (blocks.foldl compress hs).length = 8 := by
  intro blocks
  induction blocks with
  | nil => intro hs h; simpa using h
  | cons b t ih =>
    intro hs h
    simp only [List.foldl_cons]
    exact ih _ (compress_length hs b)

/-- A SHA-256 digest is 32 bytes long. -/
theorem sha256_length (msg : List Nat) : (sha256 msg).length = 32 := by
  rw [sha256, List.length_flatten, List.map_map]
  have h8 : ((chunk64 (padMessage msg)).foldl compress shaH0).length = 8 :=
    foldl_compress_length _ _ (by decide)
  have hmap : List.map (List.length ∘ beBytes 4)
      ((chunk64 (padMessage msg)).foldl compress shaH0) =
      List.map (fun _ => 4) ((chunk64 (padMessage msg)).foldl compress shaH0) := by
    apply List.map_congr_left
    intro x _
    simp [beBytes]
  rw [hmap, List.map_const', List.sum_replicate, h8]
  simp

/-- A hex digest is twice as long as its byte string. -/
theorem hexdigest_length (bytes : List Nat) :
    (hexdigest bytes).length = 2 * bytes.length := by
  show ((bytes.map byteHex).flatten).length = 2 * bytes.length
  rw [List.length_flatten, List.map_map]
  have hmap : List.map (List.length ∘ byteHex) bytes =
      List.map (fun _ => 2) bytes := by
    apply List.map_congr_left
    intro x _
    simp [byteHex]
  rw [hmap, List.map_const', List.sum_replicate]
  simp [Nat.mul_comm]

/-- Every nibble renders to a character of the lowercase hex alphabet. -/
theorem hexChar_mem (n : Nat) (h : n < 16) : hexChar n ∈ hexChars := by
  rw [hexChars]
  exact List.mem_map_of_mem hexChar (List.mem_range.mpr h)

/-- Every character of a hex digest is a lowercase hex digit. -/
theorem hexdigest_chars (bytes : List Nat) :
    ∀ c ∈ (hexdigest bytes).data, c ∈ hexChars := by
  intro c hc
  have hc' : c ∈ (bytes.map byteHex).flatten := hc
  rw [List.mem_flatten] at hc'
  obtain ⟨l, hl, hcl⟩ := hc'
  rw [List.mem_map] at hl
  obtain ⟨b, _, rfl⟩ := hl
  rw [byteHex] at hcl
  simp only [List.mem_cons, List.not_mem_nil, or_false] at hcl
  rcases hcl with rfl | rfl
  · exact hexChar_mem _ (Nat.mod_lt _ (by decide))
  · exact hexChar_mem _ (Nat.mod_lt _ (by decide))

/-! ### Claim C6 -/

/-- C6: the certificate hash is a pure function of logical content.  Two
in-memory certificates (or raw JSON dictionaries) whose field mappings are
equal as mappings — formalized as equality of the recursively key-sorted
`Json.canon` images, insertion order disregarded at every level — get
byte-identical digests; hashing is deterministic; and every digest is `0x`
followed by 64 lowercase hexadecimal characters. -/
theorem certificate_hash_canonical :
    (∀ c₁ c₂ : BeliefCertificate,
      Json.canon (asdictCert c₁) = Json.canon (asdictCert c₂) →
      certificate_hash c₁ = certificate_hash c₂) ∧
    (∀ j₁ j₂ : Json, Json.canon j₁ = Json.canon j₂ →
      certificate_hash_json j₁ = certificate_hash_json j₂) ∧
    (∀ j : Json, certificate_hash_json j = certificate_hash_json j) ∧
    (∀ j : Json, ∃ s, certificate_hash_json j = "0x" ++ s ∧ s.length = 64 ∧
      ∀ c ∈ s.data, c ∈ hexChars) := by
  have key : ∀ j₁ j₂ : Json, Json.canon j₁ = Json.canon j₂ →
      certificate_hash_json j₁ = certificate_hash_json j₂ := by
    intro j₁ j₂ h
    have hd : jsonDumps j₁ = jsonDumps j₂ := by
      rw [← jsonDumps_canon (sizeOf j₁) j₁ le_rfl, h,
        jsonDumps_canon (sizeOf j₂) j₂ le_rfl]
    rw [certificate_hash_json, certificate_hash_json, hd]
  refine ⟨fun c₁ c₂ h => key _ _ h, key, fun j => rfl, ?_⟩
  intro j
  refine ⟨hexdigest (sha256 (strEncode (jsonDumps j))), rfl, ?_, ?_⟩
  · rw [hexdigest_length, sha256_length]
  · exact hexdigest_chars _

/-- Witness for C6 on two concrete objects with the same mapping inserted in
different orders. -/
theorem certificate_hash_canonical_witness :
    Json.canon demoJson1 = Json.canon demoJson2 ∧
    certificate_hash_json demoJson1 = certificate_hash_json demoJson2 :=
  have h : Json.canon demoJson1 = Json.canon demoJson2 := by
    rw [demoJson1, demoJson2, canon_obj, canon_obj]
    simp only [List.map_cons, List.map_nil, canon_int]
    rw [sortByKey_congr_perm (List.Perm.swap _ _ _) (by simp)]
  ⟨h, certificate_hash_canonical.2.1 demoJson1 demoJson2 h⟩

end Aletheia
